import Mathlib

/-!
Siteminder relay: a shallow embedding of `siteminder.go`

The development follows the source file function by function.

* Go `map[string]string` values are association lists with pairwise distinct
  keys (`GoMap`); `m[k] = v` is `GoMap.set`, `m[k]` is `GoMap.get`.
* Go `int` is `Int`.  The only arithmetic whose overflow a configuration can
  reach, the `* 1024` of `checkConfig`, wraps to 64 bits (`wrapInt`).  The byte
  counter of `readQueue` adds lengths of JSON texts held in memory and
  `NumberOfRetries++` runs only below an `int` ceiling, so neither can leave
  the 64-bit range and both are plain integer additions
  (`readQueue_counter_in_range`, `retry_le_ceiling`).
* The unbuffered channel `Queue` is the list of events sent on it, in order.
* Library calls `json.Marshal` and `os.Getenv` are parameters; `strconv.Atoi`,
  `strconv.ParseBool`, `strings.Split`, `regexp` and `encoding/xml` are
  modelled by the definitions documented below.  The model of `encoding/xml`
  covers self-closing tags with quoted attributes, entity and character
  references included; an element with content, a namespace or a non-ASCII
  name decodes to `Decoded.unmodelled`.
* `logger.Fatal` ends the process: `checkConfig` returns `Except.error`.
* `checkConfig` is stated for every `Config`.  In a run `getConfig` hands it
  the zero value (`zeroConfig`): `InsightsKey` and `Port` carry the same yaml
  tag, which makes yaml.v2 refuse every mapping, so the settings come from the
  environment; the closed examples on `checkConfig` include that case.
-/

namespace Siteminder

/-! ## Data model -/

/-- Go `map[string]string`: an association list; a well-formed map has
pairwise distinct keys. -/
abbrev GoMap := List (String × String)

namespace GoMap

/-- Map lookup `m[k]`, `none` when the key is absent. -/
def get : GoMap → String → Option String
  | [], _ => none
  | (k', v) :: rest, k => if k' = k then some v else get rest k

/-- Map assignment `m[k] = v`: any old binding of `k` is replaced. -/
def set (m : GoMap) (k v : String) : GoMap :=
  (k, v) :: m.filter (fun p => !decide (p.1 = k))

/-- The keys of a Go map are pairwise distinct. -/
def WellFormed (m : GoMap) : Prop := (m.map Prod.fst).Nodup

instance (m : GoMap) : Decidable (WellFormed m) := by
  unfold WellFormed; infer_instance

end GoMap

/-- Config Object for Siteminder. -/
structure Config where
  InsightsURL : String
  InsightsKey : String
  Port : String
  Interval : String
  CustomAttributes : GoMap
  Debug : Bool
  MaxBufferSize : Int
  MaxRequestRetries : Int
  ProxyURL : String
  deriving DecidableEq, Repr

/-- Metric is the Object containing the metric data. -/
structure Metric where
  MetricName : String
  MetricValue : String
  MetricType : String
  deriving DecidableEq, Repr

/-- Event contains the data to send. -/
structure Event where
  EventData : GoMap
  EventSize : Int
  NumberOfRetries : Int
  deriving DecidableEq, Repr

def agentVersion : String := "1.0.0"
def eventType : String := "siteminderSample"
def maxRetriesDefault : Int := 5
def maxBufferDefault : Int := 100
def intervalDefault : String := "30s"

/-- Go `int` arithmetic on a 64-bit platform: the result wrapped into
`[-2^63, 2^63)`. -/
def wrapInt (x : Int) : Int := (x + 2 ^ 63) % 2 ^ 64 - 2 ^ 63

/-! ## Event builder (`buildEvent`) -/

/-- Lines 128-138 of `buildEvent`: the map `metricEvent` after the three
layers of assignments. -/
def buildEventData (config : Config) (metricObj : Metric) : GoMap :=
  let metricEvent : GoMap := []
  let metricEvent := metricEvent.set "eventType" eventType
  let metricEvent := metricEvent.set "agentVersion" agentVersion
  let metricEvent := metricEvent.set "interval" config.Interval
  let metricEvent := metricEvent.set "port" config.Port
  let metricEvent :=
    config.CustomAttributes.foldl (fun acc kv => acc.set kv.1 kv.2) metricEvent
  let metricEvent := metricEvent.set "metricType" metricObj.MetricType
  let metricEvent := metricEvent.set "metricName" metricObj.MetricName
  let metricEvent := metricEvent.set "metricValue" metricObj.MetricValue
  metricEvent

/-- Lines 140-150 of `buildEvent`: the event sent on the queue, `none` when
`json.Marshal` (the parameter `marshal`) reports an error.  `EventSize` is the
byte length of the encoding. -/
def buildEvent (marshal : GoMap → Option String) (config : Config)
    (metricObj : Metric) : Option Event :=
  let metricEvent := buildEventData config metricObj
  match marshal metricEvent with
  | none => none
  | some metricEventJSON =>
    some { EventData := metricEvent
           EventSize := (metricEventJSON.utf8ByteSize : Int)
           NumberOfRetries := 0 }

/-! ## Retry (`retry`) -/

/-- The events `retry` sends on the queue for a failed batch, in order. -/
def retry (config : Config) : List Event → List Event
  | [] => []
  | event :: rest =>
    if event.NumberOfRetries < config.MaxRequestRetries then
      { event with NumberOfRetries := event.NumberOfRetries + 1 } :: retry config rest
    else
      retry config rest

/-! ## Batcher (`readQueue`) and `flushBuffer` -/

/-- The local variables `buffer` and `byteSize` of `readQueue`. -/
structure BatcherState where
  buffer : List Event
  byteSize : Int
  deriving DecidableEq, Repr

/-- What one `select` of `readQueue` receives: an event from the queue or the
expiry of the timer. -/
inductive Signal where
  | msg (event : Event)
  | timeout
  deriving DecidableEq, Repr

/-- State of `readQueue` before its loop: empty buffer, counter 0. -/
def initialState : BatcherState := { buffer := [], byteSize := 0 }

/-- Lines 166-173: the size check made when an event arrives, before the event
is stored.  Returns the state after the check and the batch handed to
`flushBuffer`, if any. -/
def sizeCheck (config : Config) (s : BatcherState) : BatcherState × Option (List Event) :=
  if s.byteSize ≥ config.MaxBufferSize then
    ({ buffer := [], byteSize := 0 }, some s.buffer)
  else
    (s, none)

/-- Lines 174-175: the event is appended and its size added to the counter. -/
def accept (s : BatcherState) (msg : Event) : BatcherState :=
  { buffer := s.buffer ++ [msg], byteSize := s.byteSize + msg.EventSize }

/-- Lines 177-186: the timer case. -/
def onTimeout (s : BatcherState) : BatcherState × Option (List Event) :=
  if s.buffer.length > 0 then
    ({ buffer := [], byteSize := 0 }, some s.buffer)
  else
    (s, none)

/-- One iteration of the loop of `readQueue`: the next state and the batch
handed to `flushBuffer` during the iteration, if any. -/
def readQueueStep (config : Config) (s : BatcherState) :
    Signal → BatcherState × Option (List Event)
  | .msg m => ((accept (sizeCheck config s).1 m), (sizeCheck config s).2)
  | .timeout => onTimeout s

/-- The loop of `readQueue` run over a finite sequence of signals from state
`s`, with `flushed` the batches handed to `flushBuffer` so far, oldest first. -/
def readQueueFrom (config : Config) :
    BatcherState → List (List Event) → List Signal → BatcherState × List (List Event)
  | s, flushed, [] => (s, flushed)
  | s, flushed, sig :: rest =>
    match readQueueStep config s sig with
    | (s', none) => readQueueFrom config s' flushed rest
    | (s', some batch) => readQueueFrom config s' (flushed ++ [batch]) rest

/-- The loop of `readQueue` from its initial state. -/
def readQueue (config : Config) (sigs : List Signal) : BatcherState × List (List Event) :=
  readQueueFrom config initialState [] sigs

/-- Lines 193-196 of `flushBuffer`: the array that is JSON-encoded. -/
def flushBufferArray (events : List Event) : List GoMap :=
  events.foldl (fun eventsArray event => eventsArray ++ [event.EventData]) []

/-- The events a sequence of signals delivers, in arrival order. -/
def arrivals : List Signal → List Event
  | [] => []
  | .msg m :: rest => m :: arrivals rest
  | .timeout :: rest => arrivals rest

/-- Sum of `EventSize` over a sequence of events. -/
def totalSize (events : List Event) : Int := (events.map Event.EventSize).sum

/-! ## Configuration overlay (`checkConfig`) -/

/-- Outcome of the digit loop of `strconv.ParseUint`. -/
inductive ParsedUint where
  | value (n : Nat)
  | syntaxErr
  | rangeErr
  deriving DecidableEq, Repr

/-- Model of the digit loop of `strconv.ParseUint(s, 10, 64)`: the characters
are read in order; one that is not a decimal digit is a syntax error, and the
digit at which the value leaves 64 bits is a range error, whatever follows
it. -/
def parseUintLoop : Nat → List Char → ParsedUint
  | n, [] => .value n
  | n, c :: rest =>
    if !c.isDigit then .syntaxErr
    else if n ≥ 1844674407370955162 then .rangeErr
    else if n * 10 + (c.toNat - '0'.toNat) > 2 ^ 64 - 1 then .rangeErr
    else parseUintLoop (n * 10 + (c.toNat - '0'.toNat)) rest

/-- Model of `strconv.Atoi` on a 64-bit platform: the value returned and
whether the error is nil.  Optional sign, then decimal digits; a syntax error
gives 0, a range error the nearest `int`. -/
def Atoi (s : String) : Int × Bool :=
  let cs := s.toList
  let neg := decide (cs.head? = some '-')
  let ds := match cs with
    | '-' :: r => r
    | '+' :: r => r
    | _ => cs
  if ds.isEmpty then (0, false)
  else
    match parseUintLoop 0 ds with
    | .syntaxErr => (0, false)
    | .rangeErr => if neg then (-(2 ^ 63), false) else (2 ^ 63 - 1, false)
    | .value un =>
      if !neg && decide ((un : Int) ≥ 2 ^ 63) then (2 ^ 63 - 1, false)
      else if neg && decide ((un : Int) > 2 ^ 63) then (-(2 ^ 63), false)
      else (if neg then -(un : Int) else (un : Int), true)

/-- Model of `strconv.ParseBool`: the value returned and whether the error is
nil. -/
def ParseBool (str : String) : Bool × Bool :=
  if str ∈ ["1", "t", "T", "true", "TRUE", "True"] then (true, true)
  else if str ∈ ["0", "f", "F", "false", "FALSE", "False"] then (false, true)
  else (false, false)

/-- The function `getCustomAttrs`: `k1:v1;k2:v2` to a map; `strings.Split` on a
one-character separator is `String.split`. -/
def getCustomAttrs (tags : String) : GoMap :=
  (tags.split (fun c => c == ';')).foldl
    (fun m tag =>
      match tag.split (fun c => c == ':') with
      | p0 :: p1 :: _ => m.set p0 p1
      | _ => m)
    []

/-- Lines 260-264 of `checkConfig`: the ingestion URL.  `logger.Fatal` ends
the process: the result is then `Except.error` with the logged message. -/
def overlayInsightsURL (getenv : String → String) (config : Config) : Except String Config :=
  if getenv "NR_INSIGHTS_URL" ≠ "" then
    .ok { config with InsightsURL := getenv "NR_INSIGHTS_URL" }
  else if config.InsightsURL = "" then
    .error "Required attribute: Insights URL is mssing in your configuration file"
  else .ok config

/-- Lines 265-269 of `checkConfig`: the API key. -/
def overlayInsightsKey (getenv : String → String) (config : Config) : Except String Config :=
  if getenv "NR_INSIGHTS_KEY" ≠ "" then
    .ok { config with InsightsKey := getenv "NR_INSIGHTS_KEY" }
  else if config.InsightsKey = "" then
    .error "Required attribute: Insights Key is mssing in your configuration file"
  else .ok config

/-- Lines 270-274 of `checkConfig`: the port. -/
def overlayPort (getenv : String → String) (config : Config) : Except String Config :=
  if getenv "NR_PORT" ≠ "" then
    .ok { config with Port := getenv "NR_PORT" }
  else if config.Port = "" then
    .error "Required attribute: Port number is mssing in your configuration file"
  else .ok config

/-- Lines 275-279 of `checkConfig`: the interval. -/
def overlayInterval (getenv : String → String) (config : Config) : Config :=
  if getenv "NR_INTERVAL" ≠ "" then
    { config with Interval := getenv "NR_INTERVAL" }
  else if config.Interval = "" then
    { config with Interval := intervalDefault }
  else config

/-- Lines 280-286 of `checkConfig`: the debug flag; a value that does not
parse is logged and `false` is stored. -/
def overlayDebug (getenv : String → String) (config : Config) : Config :=
  if getenv "NR_DEBUG" ≠ "" then
    { config with Debug := (ParseBool (getenv "NR_DEBUG")).1 }
  else config

/-- Lines 287-295 of `checkConfig`: the maximum buffer size; the error of
`strconv.Atoi` is logged and the value it returned is used. -/
def overlayMaxBufferSize (getenv : String → String) (config : Config) : Config :=
  if getenv "NR_MAX_BUFFER_SIZE" ≠ "" then
    { config with
      MaxBufferSize := wrapInt ((Atoi (getenv "NR_MAX_BUFFER_SIZE")).1 * 1024) }
  else if config.MaxBufferSize = 0 then
    { config with MaxBufferSize := wrapInt (maxBufferDefault * 1024) }
  else config

/-- Lines 296-304 of `checkConfig`: the retry ceiling. -/
def overlayMaxRequestRetries (getenv : String → String) (config : Config) : Config :=
  if getenv "NR_MAX_REQUEST_RETRIES" ≠ "" then
    { config with MaxRequestRetries := (Atoi (getenv "NR_MAX_REQUEST_RETRIES")).1 }
  else if config.MaxRequestRetries = 0 then
    { config with MaxRequestRetries := maxRetriesDefault }
  else config

/-- Lines 305-307 of `checkConfig`: the block of `NR_PROXY_URL`, which assigns
`config.InsightsURL`. -/
def overlayProxyURL (getenv : String → String) (config : Config) : Config :=
  if getenv "NR_PROXY_URL" ≠ "" then
    { config with InsightsURL := getenv "NR_PROXY_URL" }
  else config

/-- Lines 308-310 of `checkConfig`: the custom attributes. -/
def overlayCustomAttrs (getenv : String → String) (config : Config) : Config :=
  if getenv "NR_CUSTOM_ATTRS" ≠ "" then
    { config with CustomAttributes := getCustomAttrs (getenv "NR_CUSTOM_ATTRS") }
  else config

/-- The function `checkConfig`, with `os.Getenv` the parameter `getenv` (an
unset variable reads as the empty string): its nine blocks in order. -/
def checkConfig (getenv : String → String) (config : Config) : Except String Config :=
  match overlayInsightsURL getenv config with
  | .error e => .error e
  | .ok c1 =>
    match overlayInsightsKey getenv c1 with
    | .error e => .error e
    | .ok c2 =>
      match overlayPort getenv c2 with
      | .error e => .error e
      | .ok c3 =>
        .ok (overlayCustomAttrs getenv (overlayProxyURL getenv
          (overlayMaxRequestRetries getenv (overlayMaxBufferSize getenv
            (overlayDebug getenv (overlayInterval getenv c3))))))

/-- An environment given by a list of bindings; other variables are unset. -/
def envOf (bindings : List (String × String)) : String → String :=
  fun name => (GoMap.get bindings name).getD ""

/-- The zero value of `Config`, which `getConfig` passes to `checkConfig` when
the configuration file holds no setting.  (The struct tags of `InsightsKey` and
`Port` are both `insights_key`, so yaml.v2 refuses to decode a mapping into
`Config`: in a run every setting comes from the environment.) -/
def zeroConfig : Config :=
  { InsightsURL := "", InsightsKey := "", Port := "", Interval := "", CustomAttributes := []
    Debug := false, MaxBufferSize := 0, MaxRequestRetries := 0, ProxyURL := "" }

/-- The three required settings given through the environment. -/
def requiredEnv : List (String × String) :=
  [("NR_INSIGHTS_URL", "https://insights.example/v1/events"), ("NR_INSIGHTS_KEY", "key"),
   ("NR_PORT", ":9000")]

/-! ## Extractor (`extractMetric`)

The line is a list of characters.  Go strings are byte strings; the model
covers the lines that are valid UTF-8. -/

/-- Removes the literal `lit` from the front of `s`, if it is there. -/
def dropLiteral : List Char → List Char → Option (List Char)
  | [], s => some s
  | _ :: _, [] => none
  | l :: lit, c :: s => if l = c then dropLiteral lit s else none

/-- The lazy part of the pattern: the shortest run of characters matched by
`.` (any character but a newline) that is followed by `/>`.  Returns the run
and what follows the `/>`. -/
def untilClose : List Char → Option (List Char × List Char)
  | [] => none
  | [_] => none
  | c :: d :: rest =>
    if c = '/' ∧ d = '>' then some ([], rest)
    else if c = '\n' then none
    else
      match untilClose (d :: rest) with
      | none => none
      | some (body, tail) => some (c :: body, tail)

/-- Model of an anchored match of the regular expression
`<metric .*?.\/>` at the start of `s`: the literal `<metric `, one character
that is not a newline, the lazy run, `/>`.  Returns the matched text and the
rest of `s`. -/
def matchAt (s : List Char) : Option (List Char × List Char) :=
  match dropLiteral "<metric ".toList s with
  | none => none
  | some [] => none
  | some (c :: rest) =>
    if c = '\n' then none
    else
      match untilClose rest with
      | none => none
      | some (body, tail) => some ("<metric ".toList ++ c :: body ++ "/>".toList, tail)

/-- Model of `re.FindAllString(line, -1)`: leftmost matches, one after the
other without overlap.  `fuel` bounds the number of positions tried. -/
def findAllFuel : Nat → List Char → List (List Char)
  | 0, _ => []
  | _, [] => []
  | fuel + 1, c :: rest =>
    match matchAt (c :: rest) with
    | some (m, tail) => m :: findAllFuel fuel tail
    | none => findAllFuel fuel rest

/-- The matches of the pattern in a line: every position of the line can be
tried. -/
def reFindAll (line : List Char) : List (List Char) :=
  findAllFuel line.length line

/-- Outcome of a modelled library call that can fail: a value, the library's
error, or an input outside the part of the library that is modelled. -/
inductive Decoded (α : Type) where
  | ok (a : α)
  | syntaxError
  | unmodelled
  deriving DecidableEq, Repr

/-- White space skipped by the XML decoder inside a tag. -/
def isSpace (c : Char) : Bool :=
  c = ' ' || c = '\r' || c = '\n' || c = '\t'

/-- ASCII characters the XML decoder accepts in a name. -/
def isNameByte (c : Char) : Bool :=
  ('A'.toNat ≤ c.toNat && c.toNat ≤ 'Z'.toNat) ||
  ('a'.toNat ≤ c.toNat && c.toNat ≤ 'z'.toNat) ||
  ('0'.toNat ≤ c.toNat && c.toNat ≤ '9'.toNat) ||
  c = '_' || c = ':' || c = '.' || c = '-'

/-- ASCII characters that can start an XML name. -/
def isNameStart (c : Char) : Bool :=
  ('A'.toNat ≤ c.toNat && c.toNat ≤ 'Z'.toNat) ||
  ('a'.toNat ≤ c.toNat && c.toNat ≤ 'z'.toNat) ||
  c = '_' || c = ':'

/-- Characters XML allows in text (`isInCharacterRange` of `encoding/xml`). -/
def isInCharacterRange (c : Char) : Bool :=
  c.toNat = 0x09 || c.toNat = 0x0A || c.toNat = 0x0D ||
  (0x20 ≤ c.toNat && c.toNat ≤ 0xD7FF) ||
  (0xE000 ≤ c.toNat && c.toNat ≤ 0xFFFD) ||
  (0x10000 ≤ c.toNat && c.toNat ≤ 0x10FFFF)

/-- The decoder skips white space. -/
def skipSpace : List Char → List Char
  | [] => []
  | c :: rest => if isSpace c then skipSpace rest else c :: rest

/-- The longest run of name characters (ASCII name bytes and every
non-ASCII character) at the front of the input, and the rest. -/
def spanName : List Char → List Char × List Char
  | [] => ([], [])
  | c :: rest =>
    if isNameByte c || decide (128 ≤ c.toNat) then
      ((c :: (spanName rest).1), (spanName rest).2)
    else ([], c :: rest)

/-- Model of the decoder reading a name: no name character is a syntax error,
as is a name starting with a digit, `-` or `.`; names with a colon (a
namespace) or a non-ASCII character are not modelled. -/
def readName (s : List Char) : Decoded (List Char × List Char) :=
  match spanName s with
  | ([], _) => .syntaxError
  | (c :: name, rest) =>
    if (c :: name).any (fun x => decide (128 ≤ x.toNat) || x == ':') then .unmodelled
    else if isNameStart c then .ok (c :: name, rest)
    else .syntaxError

/-- The five entities the decoder knows without a declaration. -/
def entityChar (name : List Char) : Option Char :=
  if name = "lt".toList then some '<'
  else if name = "gt".toList then some '>'
  else if name = "amp".toList then some '&'
  else if name = "apos".toList then some '\''
  else if name = "quot".toList then some '"'
  else none

/-- Digits of a character reference: decimal, or hexadecimal after `&#x`. -/
def isRefDigit (hex : Bool) (c : Char) : Bool :=
  c.isDigit ||
  (hex && (('a'.toNat ≤ c.toNat && c.toNat ≤ 'f'.toNat) ||
           ('A'.toNat ≤ c.toNat && c.toNat ≤ 'F'.toNat)))

/-- Value of a decimal or hexadecimal digit. -/
def refDigitValue (c : Char) : Nat :=
  if c.isDigit then c.toNat - '0'.toNat
  else if 'a'.toNat ≤ c.toNat then c.toNat - 'a'.toNat + 10
  else c.toNat - 'A'.toNat + 10

/-- The longest run of digits at the front of the input, and the rest. -/
def spanDigits (hex : Bool) : List Char → List Char × List Char
  | [] => ([], [])
  | c :: rest =>
    if isRefDigit hex c then ((c :: (spanDigits hex rest).1), (spanDigits hex rest).2)
    else ([], c :: rest)

/-- The number a run of digits writes in the given base. -/
def digitsValue (base : Nat) (ds : List Char) : Nat :=
  ds.foldl (fun n c => n * base + refDigitValue c) 0

/-- Go's `string(rune(n))` for `n` up to 0x10FFFF: the character with code
`n`, U+FFFD for a surrogate code. -/
def runeOf (n : Nat) : Char :=
  if 0xD800 ≤ n ∧ n ≤ 0xDFFF then Char.ofNat 0xFFFD else Char.ofNat n

/-- Model of the decoder reading a reference after `&` (in `Decoder.text`,
strict mode, no declared entities): `#` digits `;` or `#x` hexadecimal digits
`;` gives the character with that code (at most 0x10FFFF), a name and `;`
gives the entity of that name.  `none` is the error `invalid character
entity`.  Returns the character and what follows the `;`. -/
def readReference (s : List Char) : Option (Char × List Char) :=
  match s with
  | '#' :: s1 =>
    let hex := decide (s1.head? = some 'x')
    match spanDigits hex (if hex then s1.tail else s1) with
    | (ds, ';' :: s3) =>
      if ds.isEmpty then none
      else if digitsValue (if hex then 16 else 10) ds ≤ 0x10FFFF then
        some (runeOf (digitsValue (if hex then 16 else 10) ds), s3)
      else none
    | _ => none
  | _ =>
    match spanName s with
    | (name, ';' :: s1) =>
      (match entityChar name with
       | some ch => some (ch, s1)
       | none => none)
    | _ => none

/-- Model of the decoder reading a quoted attribute value up to the closing
`quote` (`Decoder.text` with a quote): `b1` is the character read before.  An
unclosed value, `<` and a bad reference are syntax errors, references are
replaced by their character, a carriage return is rewritten to a newline (and
the newline of `\r\n` dropped).  `fuel` bounds the number of characters
read. -/
def readText (quote : Char) : Nat → Char → List Char → Decoded (List Char × List Char)
  | 0, _, _ => .syntaxError
  | _ + 1, _, [] => .syntaxError
  | fuel + 1, b1, b :: rest =>
    if b = '<' then .syntaxError
    else if b = quote then .ok ([], rest)
    else if b = '&' then
      match readReference rest with
      | none => .syntaxError
      | some (ch, rest1) =>
        match readText quote fuel (Char.ofNat 0) rest1 with
        | .ok (data, tail) => .ok (ch :: data, tail)
        | .syntaxError => .syntaxError
        | .unmodelled => .unmodelled
    else
      match readText quote fuel b rest with
      | .ok (data, tail) =>
        .ok ((if b = '\r' then '\n' :: data
              else if b1 = '\r' ∧ b = '\n' then data
              else b :: data), tail)
      | .syntaxError => .syntaxError
      | .unmodelled => .unmodelled

/-- Model of the decoder reading `= "value"` after an attribute name
(`Decoder.attrval` in strict mode): the value must be quoted, by `"` or `'`,
and the decoded value made of characters XML allows. -/
def readAttrValue (s : List Char) : Decoded (List Char × List Char) :=
  match skipSpace s with
  | '=' :: s1 =>
    match skipSpace s1 with
    | q :: s2 =>
      if q = '"' ∨ q = '\'' then
        match readText q s2.length (Char.ofNat 0) s2 with
        | .ok (data, tail) =>
          if data.all isInCharacterRange then .ok (data, tail) else .syntaxError
        | .syntaxError => .syntaxError
        | .unmodelled => .unmodelled
      else .syntaxError
    | [] => .syntaxError
  | _ => .syntaxError

/-- Model of the decoder reading the attributes of a start tag up to `/>`:
the attributes in order.  A tag closed by `>` has content, which is not
modelled.  `fuel` bounds the number of attributes. -/
def readAttrs : Nat → List Char → Decoded (List (List Char × List Char))
  | 0, _ => .syntaxError
  | fuel + 1, s =>
    match skipSpace s with
    | [] => .syntaxError
    | '/' :: s1 =>
      (match s1 with
       | '>' :: _ => .ok []
       | _ => .syntaxError)
    | '>' :: _ => .unmodelled
    | c :: s1 =>
      match readName (c :: s1) with
      | .ok (name, s2) =>
        (match readAttrValue s2 with
         | .ok (value, s3) =>
           (match readAttrs fuel s3 with
            | .ok attrs => .ok ((name, value) :: attrs)
            | .syntaxError => .syntaxError
            | .unmodelled => .unmodelled)
         | .syntaxError => .syntaxError
         | .unmodelled => .unmodelled)
      | .syntaxError => .syntaxError
      | .unmodelled => .unmodelled

/-- Model of the decoder reading the first token of `text` as a self-closing
start tag: `<`, the element name, the attributes, `/>`. -/
def readStartTag (text : List Char) : Decoded (List (List Char × List Char)) :=
  match text with
  | '<' :: s =>
    (match readName s with
     | .ok (_, s1) => readAttrs (s1.length + 1) s1
     | .syntaxError => .syntaxError
     | .unmodelled => .unmodelled)
  | _ => .unmodelled

/-- The decoder stores an attribute in the field of `Metric` tagged with its
name (`xml:"name,attr"`, `xml:"value,attr"`, `xml:"type,attr"`); other
attributes are ignored and fields without an attribute keep their value. -/
def setAttr (metric : Metric) (attr : List Char × List Char) : Metric :=
  if attr.1 = "name".toList then { metric with MetricName := String.mk attr.2 }
  else if attr.1 = "value".toList then { metric with MetricValue := String.mk attr.2 }
  else if attr.1 = "type".toList then { metric with MetricType := String.mk attr.2 }
  else metric

/-- Model of `xml.Unmarshal([]byte(element), &metric)` for an element that is
one self-closing tag: the attributes are stored into `metric` in order.  On a
syntax error in the tag `metric` is left as it was. -/
def xmlUnmarshal (element : List Char) (metric : Metric) : Decoded Metric :=
  match readStartTag element with
  | .ok attrs => .ok (attrs.foldl setAttr metric)
  | .syntaxError => .syntaxError
  | .unmodelled => .unmodelled

/-- The loop of `extractMetric` over the matches: the metrics passed to
`buildEvent`, in order.  The variable `metric` is declared before the loop
and is the same for every match.  `none` when a match is outside the modelled
part of `encoding/xml`. -/
def extractLoop : Metric → List (List Char) → Option (List Metric)
  | _, [] => some []
  | metric, element :: rest =>
    match xmlUnmarshal element metric with
    | .ok decoded =>
      (match extractLoop decoded rest with
       | some ms => some (decoded :: ms)
       | none => none)
    | .syntaxError => extractLoop metric rest
    | .unmodelled => none

/-- The metrics `extractMetric` passes to `buildEvent` for a line, in order. -/
def extractMetrics (line : String) : Option (List Metric) :=
  if (reFindAll line.toList).isEmpty then some []
  else
    extractLoop { MetricName := "", MetricValue := "", MetricType := "" }
      (reFindAll line.toList)

/-- The function `extractMetric`: the events sent on the queue for a line. -/
def extractMetric (marshal : GoMap → Option String) (config : Config)
    (line : String) : Option (List Event) :=
  match extractMetrics line with
  | some ms => some (ms.filterMap (buildEvent marshal config))
  | none => none

/-! ## Auxiliary definitions used in the statements -/

/-- `EventSize` of the last event of a sequence, 0 for the empty sequence. -/
def lastSize (events : List Event) : Int :=
  match events.getLast? with
  | some e => e.EventSize
  | none => 0

/-- Order on strings by code points, the order in which `json.Marshal` writes
the keys of a map. -/
def charsLe : List Char → List Char → Bool
  | [], _ => true
  | _ :: _, [] => false
  | a :: s, b :: t => decide (a.toNat < b.toNat) || (decide (a.toNat = b.toNat) && charsLe s t)

/-- An encoder used to instantiate the parameter `marshal` in examples: the
JSON object with its keys in sorted order, every string copied between double
quotes.  This is what `json.Marshal` writes for maps whose strings are made of
letters, digits, spaces and dots, as in the examples. -/
def sampleMarshal (m : GoMap) : Option String :=
  let sorted := m.insertionSort (fun p q => charsLe p.1.toList q.1.toList = true)
  let fields := sorted.map (fun p => "\"" ++ p.1 ++ "\":\"" ++ p.2 ++ "\"")
  some ("\x7b" ++ ",".intercalate fields ++ "\x7d")

/-- Configuration of the end-to-end example of the specification. -/
def exampleConfig : Config :=
  { InsightsURL := "https://insights.example/v1/events"
    InsightsKey := "key"
    Port := "9000"
    Interval := "1s"
    CustomAttributes := [("host", "box1")]
    Debug := false
    MaxBufferSize := 102400
    MaxRequestRetries := 5
    ProxyURL := "" }

/-- Metric of the end-to-end example of the specification. -/
def exampleMetric : Metric :=
  { MetricName := "cpu", MetricValue := "42", MetricType := "gauge" }

/-- The object of the end-to-end example of the specification. -/
def exampleObject : GoMap :=
  [("eventType", "siteminderSample"), ("agentVersion", "1.0.0"), ("interval", "1s"),
   ("port", "9000"), ("host", "box1"), ("metricType", "gauge"), ("metricName", "cpu"),
   ("metricValue", "42")]

/-! ## Lines of valid metric tags (used to state the extraction property) -/

/-- How one attribute is written in a tag: white space before the name,
between the name and `=`, and after `=`; the quote; the text between the
quotes; and the attribute value that text stands for. -/
structure AttrLayout where
  gap : List Char
  pre : List Char
  post : List Char
  quote : Char
  raw : List Char
  value : List Char
  deriving DecidableEq, Repr

/-- A metric tag: its attributes, each a name and how it is written, in the
order of the tag, and the white space before the closing `/>`. -/
structure MetricTag where
  attrs : List (List Char × AttrLayout)
  pad : List Char
  deriving DecidableEq, Repr

/-- Text of one attribute inside a tag: white space, the key, white space,
`=`, white space, the quoted text. -/
def attrText (a : List Char × AttrLayout) : List Char :=
  a.2.gap ++ (a.1 ++ (a.2.pre ++ ('=' :: (a.2.post ++ (a.2.quote :: (a.2.raw ++ [a.2.quote]))))))

/-- Text of a tag with the attributes `attrs` and the white space `pad` before
`/>`: `<metric` and a space, the attributes, the padding, `/>`. -/
def tagChars (attrs : List (List Char × AttrLayout)) (pad : List Char) : List Char :=
  "<metric ".toList ++ ((attrs.map attrText).flatten ++ (pad ++ "/>".toList))

/-- Text of a tag. -/
def MetricTag.text (t : MetricTag) : List Char := tagChars t.attrs t.pad

/-- The attributes of a tag with the values they stand for. -/
def MetricTag.values (t : MetricTag) : List (List Char × List Char) :=
  t.attrs.map (fun a => (a.1, a.2.value))

/-- The value of the attribute `key` of a tag (empty when the tag has no such
attribute). -/
def MetricTag.valueOf (t : MetricTag) (key : List Char) : List Char :=
  match t.values.find? (fun p => decide (p.1 = key)) with
  | some p => p.2
  | none => []

/-- The Metric a tag describes: the values of its attributes name, value and
type. -/
def MetricTag.metric (t : MetricTag) : Metric :=
  { MetricName := String.mk (t.valueOf "name".toList)
    MetricValue := String.mk (t.valueOf "value".toList)
    MetricType := String.mk (t.valueOf "type".toList) }

/-- White space inside a tag on a line: spaces, tabs and carriage returns. -/
def IsBlank (l : List Char) : Prop := ∀ c ∈ l, c = ' ' ∨ c = '\t' ∨ c = '\r'

/-- A character that stands for itself in a value quoted by `q`: not the
quote, `<`, `&`, carriage return or newline, and allowed by XML. -/
def plainChar (q c : Char) : Bool :=
  c != q && c != '<' && c != '&' && c != '\r' && c != '\n' && isInCharacterRange c

/-- The mark after `&#` of a character reference: `x` for hexadecimal. -/
def refMark (hex : Bool) : List Char := if hex then ['x'] else []

/-- XML encoding of an attribute value: `Encodes q raw v` when the text `raw`
between quotes `q` stands for the value `v`.  A plain character stands for
itself, `&lt;`, `&gt;`, `&amp;`, `&apos;`, `&quot;` for their character, and
`&#` digits `;` or `&#x` hexadecimal digits `;` for the XML character with that
code, and a carriage return for a line end (a newline). -/
inductive Encodes (q : Char) : List Char → List Char → Prop where
  | nil : Encodes q [] []
  | plain (c : Char) (raw v : List Char) (hc : plainChar q c = true) :
      Encodes q raw v → Encodes q (c :: raw) (c :: v)
  | named (name : List Char) (ch : Char) (raw v : List Char)
      (hname : entityChar name = some ch) :
      Encodes q raw v → Encodes q ('&' :: (name ++ ';' :: raw)) (ch :: v)
  | code (hex : Bool) (ds : List Char) (ch : Char) (raw v : List Char)
      (hne : ds ≠ []) (hds : ∀ d ∈ ds, isRefDigit hex d = true)
      (hval : digitsValue (if hex then 16 else 10) ds = ch.toNat)
      (hch : isInCharacterRange ch = true) :
      Encodes q raw v → Encodes q ('&' :: '#' :: (refMark hex ++ (ds ++ ';' :: raw))) (ch :: v)
  | lineEnd (raw v : List Char) : Encodes q raw v → Encodes q ('\r' :: raw) ('\n' :: v)

/-- An attribute written in a way the extraction handles: white space made of
spaces, tabs and carriage returns, a double or single quote, a text that
encodes the value and does not contain `/>`. -/
def AttrLayout.OK (a : AttrLayout) : Prop :=
  IsBlank a.gap ∧ IsBlank a.pre ∧ IsBlank a.post ∧ (a.quote = '"' ∨ a.quote = '\'') ∧
    Encodes a.quote a.raw a.value ∧ ¬ "/>".toList <:+: a.raw

/-- An attribute name without namespace: ASCII name characters other than the
colon, the first a letter or `_`. -/
def isSimpleName (k : List Char) : Bool :=
  match k with
  | [] => false
  | c :: rest => isNameStart c && (c :: rest).all (fun x => isNameByte x && x != ':')

/-- A name the decoder reads as an attribute name. -/
def KeyOK (k : List Char) : Prop := isSimpleName k = true

/-- An attribute with a simple name, written in a way the extraction
handles. -/
def AttrOK (a : List Char × AttrLayout) : Prop := KeyOK a.1 ∧ a.2.OK

/-- A valid metric tag: attributes with distinct simple names, each written
in a way the extraction handles, among them name, value and type (in any
order), and white space before `/>`. -/
def MetricTag.Clean (t : MetricTag) : Prop :=
  (∀ a ∈ t.attrs, AttrOK a) ∧ IsBlank t.pad ∧ (t.attrs.map Prod.fst).Nodup ∧
    "name".toList ∈ t.attrs.map Prod.fst ∧ "value".toList ∈ t.attrs.map Prod.fst ∧
    "type".toList ∈ t.attrs.map Prod.fst

/-- Text in which no match of the pattern can start: it does not contain
`<metric ` (with the space). -/
def NoOpen (junk : String) : Prop := ¬ "<metric ".toList <:+: junk.toList

/-- A line made of tags, each preceded by some text, and a trailer. -/
def lineChars (segs : List (String × MetricTag)) (trailer : String) : List Char :=
  (segs.map (fun seg => seg.1.toList ++ seg.2.text)).flatten ++ trailer.toList

/-- The result of the lazy run after the characters `l` have been taken
first. -/
def prependRun (l : List Char) : Option (List Char × List Char) → Option (List Char × List Char)
  | none => none
  | some (body, tail) => some (l ++ body, tail)

/-- Characters the lazy run of the pattern passes over one by one: no `/` and
no newline. -/
def Plain (l : List Char) : Prop := ∀ c ∈ l, c ≠ '/' ∧ c ≠ '\n'

/-- Text the lazy run of the pattern passes over: no newline and no `/>`. -/
def Quiet (l : List Char) : Prop := (∀ c ∈ l, c ≠ '\n') ∧ ¬ "/>".toList <:+: l

instance (junk : String) : Decidable (NoOpen junk) := by
  unfold NoOpen; infer_instance

instance (l : List Char) : Decidable (IsBlank l) := by
  unfold IsBlank; infer_instance

/-- An attribute written the plain way: one space before the name, no other
white space, double quotes. -/
def plainAttr (raw value : String) : AttrLayout :=
  { gap := [], pre := [], post := [], quote := '"', raw := raw.toList, value := value.toList }

/-- The tag `<metric name="a/>b" value="1" type="g"/>`. -/
def closeInValueTag : MetricTag :=
  { attrs := [("name".toList, plainAttr "a/>b" "a/>b"),
              ("value".toList, { plainAttr "1" "1" with gap := [' '] }),
              ("type".toList, { plainAttr "g" "g" with gap := [' '] })]
    pad := [] }

/-- A line with two tags between other text: the first written the plain
way, the second with its attributes in the order type, value, unit, name, with
a tab, spaces around `=`, single quotes, references and values holding `/`,
`>` and `]]>`. -/
def exampleSegs : List (String × MetricTag) :=
  [("cpu: ",
    { attrs := [("name".toList, plainAttr "cpu" "cpu"),
                ("value".toList, { plainAttr "42" "42" with gap := [' '] }),
                ("type".toList, { plainAttr "gauge" "gauge" with gap := [' '] })]
      pad := [] }),
   (" mem: ",
    { attrs := [("type".toList, plainAttr "a]]>b" "a]]>b"),
                ("value".toList, { plainAttr "7/8 >" "7/8 >" with gap := [' '] }),
                ("unit".toList, { plainAttr "MB" "MB" with gap := [' '] }),
                ("name".toList,
                  { gap := ['\t'], pre := [' '], post := [' '], quote := '\''
                    raw := "R&amp;D &#x22;mem&#34;".toList, value := "R&D \"mem\"".toList })]
      pad := [' '] })]

/-! ## Maps -/

theorem GoMap.get_filter_ne (m : GoMap) (k k' : String) (h : k ≠ k') :
    GoMap.get (m.filter (fun p => !decide (p.1 = k))) k' = GoMap.get m k' := by
  induction m using List.rec with
  | nil => rfl
  | cons p rest ih =>
    obtain ⟨a, b⟩ := p
    by_cases hak : a = k
    · subst hak
      simp [List.filter, GoMap.get, h, ih]
    · simp [List.filter, GoMap.get, hak, ih]

theorem GoMap.get_nil (k : String) : GoMap.get [] k = none := rfl

theorem GoMap.get_set (m : GoMap) (k v k' : String) :
    GoMap.get (m.set k v) k' = if k = k' then some v else GoMap.get m k' := by
  unfold GoMap.set
  by_cases h : k = k'
  · simp [GoMap.get, h]
  · simp [GoMap.get, h, GoMap.get_filter_ne m k k' h]

theorem GoMap.get_eq_none (m : GoMap) (k : String) (h : k ∉ m.map Prod.fst) :
    GoMap.get m k = none := by
  induction m using List.rec with
  | nil => rfl
  | cons p rest ih =>
    obtain ⟨a, b⟩ := p
    simp only [List.map_cons, List.mem_cons, not_or] at h
    have hne : ¬ a = k := fun e => h.1 e.symm
    simp [GoMap.get, hne, ih h.2]

/-- Ranging over a well-formed map and assigning every entry: afterwards a key
of the map has the map's value, every other key its old one. -/
theorem GoMap.get_foldl_set (attrs : GoMap) (h : attrs.WellFormed) (m : GoMap) (k : String) :
    GoMap.get (attrs.foldl (fun acc kv => acc.set kv.1 kv.2) m) k =
      match GoMap.get attrs k with
      | some v => some v
      | none => GoMap.get m k := by
  induction attrs using List.rec generalizing m with
  | nil => rfl
  | cons p rest ih =>
    obtain ⟨a, b⟩ := p
    have hnd : (a ∉ rest.map Prod.fst) ∧ (rest.map Prod.fst).Nodup := by
      simpa [GoMap.WellFormed] using h
    rw [List.foldl_cons, ih hnd.2]
    simp only [GoMap.get_set]
    by_cases hak : a = k
    · subst hak
      simp [GoMap.get, GoMap.get_eq_none rest a hnd.1]
    · simp [GoMap.get, hak]

/-! ## Event builder -/

/-- C1: the EventData built by `buildEvent` is the layering of the fixed
keys, then the custom attributes, then the metric fields, later layers
overriding: at every key it is the metric field for `metricValue`,
`metricName`, `metricType`; otherwise the custom attribute when the key is
one; otherwise the constant or configured value for `port`, `interval`,
`agentVersion`, `eventType`; otherwise absent.  The event submitted carries
exactly this map. -/
theorem buildEvent_layering (config : Config) (metricObj : Metric)
    (h : config.CustomAttributes.WellFormed) :
    (∀ k : String,
      GoMap.get (buildEventData config metricObj) k =
        if k = "metricValue" then some metricObj.MetricValue
        else if k = "metricName" then some metricObj.MetricName
        else if k = "metricType" then some metricObj.MetricType
        else match GoMap.get config.CustomAttributes k with
          | some v => some v
          | none =>
            if k = "port" then some config.Port
            else if k = "interval" then some config.Interval
            else if k = "agentVersion" then some "1.0.0"
            else if k = "eventType" then some "siteminderSample"
            else none) ∧
    (∀ (marshal : GoMap → Option String) (ev : Event),
      buildEvent marshal config metricObj = some ev →
        ev.EventData = buildEventData config metricObj) := by
  refine ⟨fun k => ?_, fun marshal ev hev => ?_⟩
  · simp only [buildEventData, GoMap.get_set, GoMap.get_foldl_set _ h, GoMap.get_nil,
      agentVersion, eventType]
    by_cases h1 : k = "metricValue"
    · simp [h1]
    by_cases h2 : k = "metricName"
    · simp [h2]
    by_cases h3 : k = "metricType"
    · simp [h3]
    have e1 : ¬ "metricValue" = k := fun e => h1 e.symm
    have e2 : ¬ "metricName" = k := fun e => h2 e.symm
    have e3 : ¬ "metricType" = k := fun e => h3 e.symm
    simp only [h1, h2, h3, e1, e2, e3, if_false]
    cases GoMap.get config.CustomAttributes k with
    | some v => rfl
    | none =>
      by_cases h4 : k = "port"
      · simp [h4]
      by_cases h5 : k = "interval"
      · simp [h5]
      by_cases h6 : k = "agentVersion"
      · simp [h6]
      by_cases h7 : k = "eventType"
      · simp [h7]
      have e4 : ¬ "port" = k := fun e => h4 e.symm
      have e5 : ¬ "interval" = k := fun e => h5 e.symm
      have e6 : ¬ "agentVersion" = k := fun e => h6 e.symm
      have e7 : ¬ "eventType" = k := fun e => h7 e.symm
      simp [h4, h5, h6, h7, e4, e5, e6, e7]
  · unfold buildEvent at hev
    cases hm : marshal (buildEventData config metricObj) with
    | none => simp [hm] at hev
    | some js =>
      simp only [hm, Option.some.injEq] at hev
      rw [← hev]

set_option maxRecDepth 100000 in
/-- The end-to-end example: port 9000, interval 1s, custom attribute host =
box1 and the metric cpu/42/gauge give exactly the eight-key object of the
specification, and at the key `host` the layering selects the custom
attribute. -/
theorem buildEvent_layering_witness :
    exampleConfig.CustomAttributes.WellFormed ∧
    GoMap.get (buildEventData exampleConfig exampleMetric) "host" = some "box1" ∧
    GoMap.get (buildEventData exampleConfig exampleMetric) "metricName" = some "cpu" ∧
    GoMap.get (buildEventData exampleConfig exampleMetric) "colour" = none ∧
    (buildEventData exampleConfig exampleMetric).Perm exampleObject ∧
    (buildEventData exampleConfig exampleMetric).length = 8 :=
  ⟨by decide,
   ((buildEvent_layering exampleConfig exampleMetric (by decide)).1 "host").trans (by decide),
   ((buildEvent_layering exampleConfig exampleMetric (by decide)).1 "metricName").trans
     (by decide),
   ((buildEvent_layering exampleConfig exampleMetric (by decide)).1 "colour").trans (by decide),
   by decide, by decide⟩

/-! ## Retry -/

theorem retry_eq_filter_map (config : Config) (batch : List Event) :
    retry config batch =
      (batch.filter (fun e => decide (e.NumberOfRetries < config.MaxRequestRetries))).map
        (fun e => { e with NumberOfRetries := e.NumberOfRetries + 1 }) := by
  induction batch using List.rec with
  | nil => rfl
  | cons e rest ih =>
    by_cases h : e.NumberOfRetries < config.MaxRequestRetries
    · simp [retry, List.filter, h, ih]
    · simp [retry, List.filter, h, ih]

theorem retry_mem (config : Config) (batch : List Event) (e : Event)
    (h : e ∈ retry config batch) :
    ∃ e0 ∈ batch, e0.NumberOfRetries < config.MaxRequestRetries ∧
      e = { e0 with NumberOfRetries := e0.NumberOfRetries + 1 } := by
  rw [retry_eq_filter_map] at h
  simp only [List.mem_map, List.mem_filter, decide_eq_true_eq] at h
  obtain ⟨e0, ⟨hmem, hlt⟩, rfl⟩ := h
  exact ⟨e0, hmem, hlt, rfl⟩

/-- C2: for every retry ceiling and every failed batch, `retry` sends on the
queue exactly the events of the batch whose NumberOfRetries is below the
ceiling, in batch order, each with NumberOfRetries increased by 1 and with
EventData and EventSize unchanged; the others are dropped.  An event at
ceiling - 1 is sent again with NumberOfRetries equal to the ceiling, and when
that event fails again nothing is sent. -/
theorem retry_resubmits_below_ceiling (config : Config) (batch : List Event) :
    retry config batch =
      (batch.filter (fun e => decide (e.NumberOfRetries < config.MaxRequestRetries))).map
        (fun e => { EventData := e.EventData
                    EventSize := e.EventSize
                    NumberOfRetries := e.NumberOfRetries + 1 }) ∧
    (∀ e : Event, e.NumberOfRetries = config.MaxRequestRetries - 1 →
      retry config [e] =
        [{ EventData := e.EventData
           EventSize := e.EventSize
           NumberOfRetries := config.MaxRequestRetries }] ∧
      retry config (retry config [e]) = []) := by
  refine ⟨retry_eq_filter_map config batch, fun e he => ?_⟩
  have hlt : e.NumberOfRetries < config.MaxRequestRetries := by omega
  have h1 : retry config [e] =
      [{ EventData := e.EventData
         EventSize := e.EventSize
         NumberOfRetries := config.MaxRequestRetries }] := by
    simp only [retry, hlt, if_true]
    rw [he]
    simp
  refine ⟨h1, ?_⟩
  rw [h1]
  simp [retry]

theorem retry_iterate_mem (config : Config) (ev : Event) (n : Nat) :
    ∀ e ∈ (retry config)^[n] [ev],
      e.EventData = ev.EventData ∧ e.EventSize = ev.EventSize := by
  induction n with
  | zero =>
    intro e he
    simp only [Function.iterate_zero, id_eq, List.mem_singleton] at he
    subst he
    exact ⟨rfl, rfl⟩
  | succ n ih =>
    intro e he
    rw [Function.iterate_succ_apply'] at he
    obtain ⟨e0, hmem, _, rfl⟩ := retry_mem config _ e he
    exact ih e0 hmem

theorem retry_iterate_below (config : Config) (ev : Event) (h0 : ev.NumberOfRetries = 0)
    (n : Nat) (hn : (n : Int) ≤ config.MaxRequestRetries) :
    (retry config)^[n] [ev] = [{ ev with NumberOfRetries := (n : Int) }] := by
  induction n with
  | zero =>
    simp only [Function.iterate_zero, id_eq, Nat.cast_zero]
    rw [← h0]
  | succ n ih =>
    have hn' : (n : Int) ≤ config.MaxRequestRetries := by push_cast at hn; omega
    have hlt : (n : Int) < config.MaxRequestRetries := by push_cast at hn; omega
    rw [Function.iterate_succ_apply', ih hn']
    simp [retry, hlt]

/-- C7: an event that `buildEvent` submits has EventSize equal to the byte
length of the JSON encoding of its EventData, and it keeps that EventData and
that EventSize through any number of passes of `retry`: after `n` passes, `n`
at most the ceiling, the event is still in flight with only NumberOfRetries
changed (to `n`), and whatever `retry` sends for any batch carries the
EventData and EventSize of an event of the batch. -/
theorem eventSize_roundtrip (marshal : GoMap → Option String) (config : Config)
    (metricObj : Metric) (ev : Event) (h : buildEvent marshal config metricObj = some ev) :
    (∃ js : String, marshal ev.EventData = some js ∧ ev.EventSize = (js.utf8ByteSize : Int)) ∧
    (∀ (c : Config) (n : Nat), ∀ e ∈ (retry c)^[n] [ev],
      e.EventData = ev.EventData ∧ e.EventSize = ev.EventSize ∧
      ∃ js : String, marshal e.EventData = some js ∧ e.EventSize = (js.utf8ByteSize : Int)) ∧
    (∀ (c : Config) (n : Nat), (n : Int) ≤ c.MaxRequestRetries →
      (retry c)^[n] [ev] =
        [{ EventData := ev.EventData, EventSize := ev.EventSize, NumberOfRetries := (n : Int) }]) ∧
    (∀ (c : Config) (batch : List Event), ∀ e ∈ retry c batch, ∃ e0 ∈ batch,
      e.EventData = e0.EventData ∧ e.EventSize = e0.EventSize ∧
      e.NumberOfRetries = e0.NumberOfRetries + 1) := by
  have hsize : ∃ js : String, marshal ev.EventData = some js ∧
      ev.EventSize = (js.utf8ByteSize : Int) ∧ ev.NumberOfRetries = 0 := by
    unfold buildEvent at h
    cases hm : marshal (buildEventData config metricObj) with
    | none => simp [hm] at h
    | some js =>
      simp only [hm, Option.some.injEq] at h
      subst h
      exact ⟨js, hm, rfl, rfl⟩
  obtain ⟨js, hjs, hlen, hzero⟩ := hsize
  refine ⟨⟨js, hjs, hlen⟩, ?_, ?_, ?_⟩
  · intro c n e he
    obtain ⟨hd, hs⟩ := retry_iterate_mem c ev n e he
    exact ⟨hd, hs, js, by rw [hd]; exact hjs, by rw [hs]; exact hlen⟩
  · intro c n hn
    exact retry_iterate_below c ev hzero n hn
  · intro c batch e he
    obtain ⟨e0, hmem, _, rfl⟩ := retry_mem c batch e he
    exact ⟨e0, hmem, rfl, rfl, rfl⟩

set_option maxRecDepth 100000 in
/-- The example event: its JSON encoding has 158 bytes, and after two failed
deliveries it is in flight with the same data and size. -/
theorem eventSize_roundtrip_witness :
    buildEvent sampleMarshal exampleConfig exampleMetric =
      some { EventData := buildEventData exampleConfig exampleMetric
             EventSize := 158
             NumberOfRetries := 0 } ∧
    (retry exampleConfig)^[2]
        [{ EventData := buildEventData exampleConfig exampleMetric
           EventSize := 158
           NumberOfRetries := 0 }] =
      [{ EventData := buildEventData exampleConfig exampleMetric
         EventSize := 158
         NumberOfRetries := 2 }] :=
  ⟨by decide,
   (eventSize_roundtrip sampleMarshal exampleConfig exampleMetric _ (by decide)).2.2.1
     exampleConfig 2 (by decide)⟩

/-! ## Batcher -/

theorem flushBufferArray_eq_map (events : List Event) :
    flushBufferArray events = events.map Event.EventData := by
  have key : ∀ (acc : List GoMap) (l : List Event),
      l.foldl (fun eventsArray event => eventsArray ++ [event.EventData]) acc =
        acc ++ l.map Event.EventData := by
    intro acc l
    induction l using List.rec generalizing acc with
    | nil => simp
    | cons e rest ih => simp [List.foldl_cons, ih]
  simpa [flushBufferArray] using key [] events

theorem sizeCheck_some (config : Config) (s : BatcherState) (batch : List Event)
    (h : (sizeCheck config s).2 = some batch) :
    batch = s.buffer ∧ s.byteSize ≥ config.MaxBufferSize ∧
      (sizeCheck config s).1 = { buffer := [], byteSize := 0 } := by
  unfold sizeCheck at h ⊢
  by_cases hc : s.byteSize ≥ config.MaxBufferSize
  · simp only [hc, if_true, Option.some.injEq] at h ⊢
    exact ⟨h.symm, trivial, trivial⟩
  · simp [hc] at h

theorem sizeCheck_none (config : Config) (s : BatcherState)
    (h : (sizeCheck config s).2 = none) :
    s.byteSize < config.MaxBufferSize ∧ (sizeCheck config s).1 = s := by
  unfold sizeCheck at h ⊢
  by_cases hc : s.byteSize ≥ config.MaxBufferSize
  · simp [hc] at h
  · simp only [hc, if_false]
    exact ⟨by omega, trivial⟩

theorem onTimeout_some (s : BatcherState) (batch : List Event)
    (h : (onTimeout s).2 = some batch) :
    batch = s.buffer ∧ s.buffer ≠ [] ∧ (onTimeout s).1 = { buffer := [], byteSize := 0 } := by
  unfold onTimeout at h ⊢
  by_cases hc : s.buffer.length > 0
  · simp only [hc, if_true, Option.some.injEq] at h ⊢
    exact ⟨h.symm, List.ne_nil_of_length_pos hc, trivial⟩
  · simp [hc] at h

theorem onTimeout_none (s : BatcherState) (h : (onTimeout s).2 = none) :
    (onTimeout s).1 = s := by
  unfold onTimeout at h ⊢
  by_cases hc : s.buffer.length > 0
  · simp [hc] at h
  · simp [hc]

/-- One step keeps the events: what was flushed during the step, then the new
buffer, is the old buffer followed by the event that arrived. -/
theorem readQueueStep_events (config : Config) (s : BatcherState) (sig : Signal) :
    (match (readQueueStep config s sig).2 with
      | some batch => batch
      | none => []) ++ (readQueueStep config s sig).1.buffer =
      s.buffer ++ arrivals [sig] := by
  cases sig with
  | msg m =>
    simp only [readQueueStep, arrivals]
    cases hf : (sizeCheck config s).2 with
    | none =>
      obtain ⟨_, hs⟩ := sizeCheck_none config s hf
      simp [hs, accept]
    | some batch =>
      obtain ⟨hb, _, hs⟩ := sizeCheck_some config s batch hf
      simp [hs, hb, accept]
  | timeout =>
    simp only [readQueueStep, arrivals]
    cases hf : (onTimeout s).2 with
    | none =>
      have hs := onTimeout_none s hf
      simp [hs]
    | some batch =>
      obtain ⟨hb, _, hs⟩ := onTimeout_some s batch hf
      simp [hs, hb]

theorem arrivals_cons (sig : Signal) (rest : List Signal) :
    arrivals (sig :: rest) = arrivals [sig] ++ arrivals rest := by
  cases sig <;> simp [arrivals]

theorem readQueueFrom_events (config : Config) (sigs : List Signal) :
    ∀ (s : BatcherState) (flushed : List (List Event)),
      (readQueueFrom config s flushed sigs).2.flatten ++
          (readQueueFrom config s flushed sigs).1.buffer =
        flushed.flatten ++ s.buffer ++ arrivals sigs := by
  induction sigs using List.rec with
  | nil => intro s flushed; simp [readQueueFrom, arrivals]
  | cons sig rest ih =>
    intro s flushed
    have hstep := readQueueStep_events config s sig
    rw [arrivals_cons]
    cases hr : readQueueStep config s sig with
    | mk s1 out =>
      rw [hr] at hstep
      cases out with
      | none =>
        simp only [readQueueFrom, hr]
        rw [ih s1 flushed]
        simp only [List.nil_append] at hstep
        rw [hstep]
        simp [List.append_assoc]
      | some batch =>
        simp only [readQueueFrom, hr]
        rw [ih s1 (flushed ++ [batch])]
        simp only [List.flatten_append, List.flatten_cons, List.flatten_nil, List.append_nil,
          List.append_assoc]
        rw [← List.append_assoc batch, hstep]
        simp [List.append_assoc]

/-- C5: for every sequence of event arrivals and timer expiries from the
initial state, the batches flushed so far, concatenated in flush order, and
then the current buffer, are exactly the events received so far in arrival
order; a flush hands over the whole buffer and leaves the buffer empty before
the next event is appended; and the array `flushBuffer` encodes is the
EventData of the events of the batch, in the same order and of the same
length. -/
theorem batcher_keeps_arrival_order (config : Config) (sigs : List Signal) :
    (readQueue config sigs).2.flatten ++ (readQueue config sigs).1.buffer = arrivals sigs ∧
    (∀ (s : BatcherState) (batch : List Event), (sizeCheck config s).2 = some batch →
      batch = s.buffer ∧ (sizeCheck config s).1.buffer = []) ∧
    (∀ (s : BatcherState) (batch : List Event), (onTimeout s).2 = some batch →
      batch = s.buffer ∧ (onTimeout s).1.buffer = []) ∧
    (∀ events : List Event,
      flushBufferArray events = events.map Event.EventData ∧
      (flushBufferArray events).length = events.length) := by
  refine ⟨?_, ?_, ?_, ?_⟩
  · have h := readQueueFrom_events config sigs initialState []
    simpa [readQueue, initialState] using h
  · intro s batch h
    obtain ⟨hb, _, hs⟩ := sizeCheck_some config s batch h
    exact ⟨hb, by rw [hs]⟩
  · intro s batch h
    obtain ⟨hb, _, hs⟩ := onTimeout_some s batch h
    exact ⟨hb, by rw [hs]⟩
  · intro events
    rw [flushBufferArray_eq_map]
    exact ⟨rfl, List.length_map _ _⟩

theorem totalSize_nil : totalSize [] = 0 := rfl

theorem lastSize_nil : lastSize [] = 0 := rfl

theorem totalSize_append_singleton (l : List Event) (e : Event) :
    totalSize (l ++ [e]) = totalSize l + e.EventSize := by
  simp [totalSize]

theorem lastSize_append_singleton (l : List Event) (e : Event) :
    lastSize (l ++ [e]) = e.EventSize := by
  simp [lastSize]

/-- Invariant of the batcher for threshold `S`: the counter is the sum of the
sizes of the buffered events, and that sum without the last event is below
`S`. -/
theorem readQueueStep_invariant (config : Config) (hS : 0 < config.MaxBufferSize)
    (s : BatcherState) (sig : Signal)
    (hsum : s.byteSize = totalSize s.buffer)
    (hlast : totalSize s.buffer - lastSize s.buffer < config.MaxBufferSize) :
    (readQueueStep config s sig).1.byteSize = totalSize (readQueueStep config s sig).1.buffer ∧
    totalSize (readQueueStep config s sig).1.buffer -
        lastSize (readQueueStep config s sig).1.buffer < config.MaxBufferSize ∧
    (∀ batch, (readQueueStep config s sig).2 = some batch →
      totalSize batch - lastSize batch < config.MaxBufferSize) := by
  cases sig with
  | msg m =>
    simp only [readQueueStep]
    cases hf : (sizeCheck config s).2 with
    | none =>
      obtain ⟨hlt, hs⟩ := sizeCheck_none config s hf
      rw [hs]
      simp only [accept, totalSize_append_singleton, lastSize_append_singleton]
      refine ⟨by rw [hsum], by omega, ?_⟩
      intro batch hb
      simp at hb
    | some b =>
      obtain ⟨hb, _, hs⟩ := sizeCheck_some config s b hf
      rw [hs]
      simp only [accept, totalSize_append_singleton, lastSize_append_singleton, totalSize_nil]
      refine ⟨trivial, by omega, ?_⟩
      intro batch hbatch
      simp only [Option.some.injEq] at hbatch
      rw [← hbatch, hb]
      exact hlast
  | timeout =>
    simp only [readQueueStep]
    cases hf : (onTimeout s).2 with
    | none =>
      rw [onTimeout_none s hf]
      refine ⟨hsum, hlast, ?_⟩
      intro batch hb
      simp at hb
    | some b =>
      obtain ⟨hb, _, hs⟩ := onTimeout_some s b hf
      rw [hs]
      simp only [totalSize_nil, lastSize_nil]
      refine ⟨trivial, by omega, ?_⟩
      intro batch hbatch
      simp only [Option.some.injEq] at hbatch
      rw [← hbatch, hb]
      exact hlast

theorem readQueueFrom_invariant (config : Config) (hS : 0 < config.MaxBufferSize)
    (sigs : List Signal) :
    ∀ (s : BatcherState) (flushed : List (List Event)),
      s.byteSize = totalSize s.buffer →
      totalSize s.buffer - lastSize s.buffer < config.MaxBufferSize →
      (∀ batch ∈ flushed, totalSize batch - lastSize batch < config.MaxBufferSize) →
      (readQueueFrom config s flushed sigs).1.byteSize =
          totalSize (readQueueFrom config s flushed sigs).1.buffer ∧
      totalSize (readQueueFrom config s flushed sigs).1.buffer -
          lastSize (readQueueFrom config s flushed sigs).1.buffer < config.MaxBufferSize ∧
      (∀ batch ∈ (readQueueFrom config s flushed sigs).2,
        totalSize batch - lastSize batch < config.MaxBufferSize) := by
  induction sigs using List.rec with
  | nil =>
    intro s flushed h1 h2 h3
    exact ⟨h1, h2, h3⟩
  | cons sig rest ih =>
    intro s flushed h1 h2 h3
    obtain ⟨g1, g2, g3⟩ := readQueueStep_invariant config hS s sig h1 h2
    cases hr : readQueueStep config s sig with
    | mk s1 out =>
      rw [hr] at g1 g2 g3
      cases out with
      | none =>
        simp only [readQueueFrom, hr]
        exact ih s1 flushed g1 g2 h3
      | some b =>
        simp only [readQueueFrom, hr]
        refine ih s1 (flushed ++ [b]) g1 g2 ?_
        intro batch hmem
        rcases List.mem_append.mp hmem with hm | hm
        · exact h3 batch hm
        · rw [List.mem_singleton.mp hm]
          exact g3 b rfl

/-- C6: for a positive size threshold and every sequence of event arrivals
and timer expiries from the initial state: the byte counter equals the sum of
EventSize over the buffered events; the buffer and every flushed batch exceed
the threshold by at most their last event (the sum without the last event is
below the threshold); the next arrival triggers a flush only if the counter is
at or above the threshold, the batch so flushed has summed EventSize at or
above the threshold, and the counter is 0 right after a flush, on arrival or on
timer expiry. -/
theorem batcher_counter_and_threshold (config : Config) (hS : 0 < config.MaxBufferSize)
    (sigs : List Signal) :
    (readQueue config sigs).1.byteSize = totalSize (readQueue config sigs).1.buffer ∧
    totalSize (readQueue config sigs).1.buffer - lastSize (readQueue config sigs).1.buffer
      < config.MaxBufferSize ∧
    (∀ batch ∈ (readQueue config sigs).2,
      totalSize batch - lastSize batch < config.MaxBufferSize) ∧
    (∀ (m : Event) (batch : List Event),
      (readQueueStep config (readQueue config sigs).1 (.msg m)).2 = some batch →
        (readQueue config sigs).1.byteSize ≥ config.MaxBufferSize ∧
        totalSize batch ≥ config.MaxBufferSize ∧
        (sizeCheck config (readQueue config sigs).1).1.byteSize = 0 ∧
        (readQueueStep config (readQueue config sigs).1 (.msg m)).1.byteSize = m.EventSize) ∧
    (∀ batch : List Event,
      (readQueueStep config (readQueue config sigs).1 .timeout).2 = some batch →
        (readQueueStep config (readQueue config sigs).1 .timeout).1.byteSize = 0) := by
  have hinv := readQueueFrom_invariant config hS sigs initialState [] rfl (by
    simp only [initialState, totalSize_nil, lastSize_nil]; omega) (by simp)
  obtain ⟨h1, h2, h3⟩ := hinv
  refine ⟨h1, h2, h3, ?_, ?_⟩
  · intro m batch hb
    simp only [readQueueStep] at hb ⊢
    obtain ⟨hbatch, hge, hs⟩ := sizeCheck_some config _ batch hb
    refine ⟨hge, ?_, by rw [hs], by rw [hs]; simp [accept]⟩
    rw [hbatch]
    have h1' : (readQueue config sigs).1.byteSize = totalSize (readQueue config sigs).1.buffer := h1
    omega
  · intro batch hb
    simp only [readQueueStep] at hb ⊢
    obtain ⟨_, _, hs⟩ := onTimeout_some _ batch hb
    rw [hs]

/-- A run with threshold 10 and events of sizes 6, 6, 3: the second arrival
leaves the counter at 12, the third flushes the batch of sums 12 and starts a
new buffer. -/
theorem batcher_counter_and_threshold_witness :
    (0 : Int) < 10 ∧
    (readQueue { exampleConfig with MaxBufferSize := 10 }
      [.msg ⟨[], 6, 0⟩, .msg ⟨[], 6, 0⟩, .msg ⟨[], 3, 0⟩]).1.byteSize =
      totalSize (readQueue { exampleConfig with MaxBufferSize := 10 }
        [.msg ⟨[], 6, 0⟩, .msg ⟨[], 6, 0⟩, .msg ⟨[], 3, 0⟩]).1.buffer ∧
    readQueue { exampleConfig with MaxBufferSize := 10 }
      [.msg ⟨[], 6, 0⟩, .msg ⟨[], 6, 0⟩, .msg ⟨[], 3, 0⟩] =
      ({ buffer := [⟨[], 3, 0⟩], byteSize := 3 }, [[⟨[], 6, 0⟩, ⟨[], 6, 0⟩]]) :=
  ⟨by decide,
   (batcher_counter_and_threshold { exampleConfig with MaxBufferSize := 10 } (by decide)
     [.msg ⟨[], 6, 0⟩, .msg ⟨[], 6, 0⟩, .msg ⟨[], 3, 0⟩]).1,
   by decide⟩

theorem readQueueStep_nonempty (config : Config) (hS : 0 < config.MaxBufferSize)
    (s : BatcherState) (sig : Signal) (hsum : s.byteSize = totalSize s.buffer) :
    (readQueueStep config s sig).1.byteSize = totalSize (readQueueStep config s sig).1.buffer ∧
    (∀ batch, (readQueueStep config s sig).2 = some batch → batch ≠ []) := by
  cases sig with
  | msg m =>
    simp only [readQueueStep]
    cases hf : (sizeCheck config s).2 with
    | none =>
      obtain ⟨_, hs⟩ := sizeCheck_none config s hf
      rw [hs]
      simp only [accept, totalSize_append_singleton]
      exact ⟨by rw [hsum], fun batch hb => by simp at hb⟩
    | some b =>
      obtain ⟨hb, hge, hs⟩ := sizeCheck_some config s b hf
      rw [hs]
      simp only [accept, totalSize_append_singleton, totalSize_nil]
      refine ⟨trivial, ?_⟩
      intro batch hbatch
      simp only [Option.some.injEq] at hbatch
      rw [← hbatch, hb]
      intro hnil
      rw [hnil, totalSize_nil] at hsum
      omega
  | timeout =>
    simp only [readQueueStep]
    cases hf : (onTimeout s).2 with
    | none =>
      rw [onTimeout_none s hf]
      exact ⟨hsum, fun batch hb => by simp at hb⟩
    | some b =>
      obtain ⟨hb, hne, hs⟩ := onTimeout_some s b hf
      rw [hs]
      refine ⟨rfl, ?_⟩
      intro batch hbatch
      simp only [Option.some.injEq] at hbatch
      rw [← hbatch, hb]
      exact hne

/-- For a positive threshold every batch handed to `flushBuffer` is
non-empty. -/
theorem readQueue_batches_nonempty_of_pos (config : Config) (hS : 0 < config.MaxBufferSize)
    (sigs : List Signal) :
    ∀ batch ∈ (readQueue config sigs).2, batch ≠ [] := by
  have key : ∀ (l : List Signal) (s : BatcherState) (flushed : List (List Event)),
      s.byteSize = totalSize s.buffer → (∀ b ∈ flushed, b ≠ []) →
        ∀ b ∈ (readQueueFrom config s flushed l).2, b ≠ [] := by
    intro l
    induction l using List.rec with
    | nil => intro s flushed _ h2; exact h2
    | cons sig rest ih =>
      intro s flushed h1 h2
      obtain ⟨g1, g2⟩ := readQueueStep_nonempty config hS s sig h1
      cases hr : readQueueStep config s sig with
      | mk s1 out =>
        rw [hr] at g1 g2
        cases out with
        | none =>
          simp only [readQueueFrom, hr]
          exact ih s1 flushed g1 h2
        | some b =>
          simp only [readQueueFrom, hr]
          refine ih s1 (flushed ++ [b]) g1 ?_
          intro x hx
          rcases List.mem_append.mp hx with hm | hm
          · exact h2 x hm
          · rw [List.mem_singleton.mp hm]
            exact g2 b rfl
  exact key sigs initialState [] rfl (by simp)

theorem wrapInt_of_range (x : Int) (h0 : -(2 ^ 63) ≤ x) (h1 : x < 2 ^ 63) : wrapInt x = x := by
  unfold wrapInt
  omega

/-- The increment of `retry` stays at or below the ceiling, itself an `int`:
`NumberOfRetries++` does not overflow. -/
theorem retry_le_ceiling (config : Config) (batch : List Event) :
    ∀ e ∈ retry config batch, e.NumberOfRetries ≤ config.MaxRequestRetries := by
  intro e he
  obtain ⟨e0, _, hlt, rfl⟩ := retry_mem config batch e he
  show e0.NumberOfRetries + 1 ≤ config.MaxRequestRetries
  omega

theorem readQueueStep_range (config : Config) (hS : 0 < config.MaxBufferSize) (M : Int)
    (s : BatcherState) (sig : Signal)
    (hsig : ∀ e ∈ arrivals [sig], 0 ≤ e.EventSize ∧ e.EventSize ≤ M)
    (h0 : 0 ≤ s.byteSize) (h1 : s.byteSize < config.MaxBufferSize + M) :
    0 ≤ (readQueueStep config s sig).1.byteSize ∧
    (readQueueStep config s sig).1.byteSize < config.MaxBufferSize + M := by
  cases sig with
  | msg m =>
    have hm := hsig m (by simp [arrivals])
    simp only [readQueueStep]
    cases hf : (sizeCheck config s).2 with
    | none =>
      obtain ⟨hlt, hs⟩ := sizeCheck_none config s hf
      rw [hs]
      simp only [accept]
      omega
    | some b =>
      obtain ⟨_, _, hs⟩ := sizeCheck_some config s b hf
      rw [hs]
      simp only [accept]
      omega
  | timeout =>
    simp only [readQueueStep]
    cases hf : (onTimeout s).2 with
    | none =>
      rw [onTimeout_none s hf]
      exact ⟨h0, h1⟩
    | some b =>
      obtain ⟨_, _, hs⟩ := onTimeout_some s b hf
      rw [hs]
      simp only
      omega

/-- The byte counter of `readQueue` stays inside the range of a 64-bit `int`
when the sizes of the events are lengths (non-negative) bounded by `M` and
the threshold plus `M` fits: the additions of `readQueue` do not overflow. -/
theorem readQueue_counter_in_range (config : Config) (hS : 0 < config.MaxBufferSize)
    (M : Int) (hM : 0 ≤ M) (hfit : config.MaxBufferSize + M ≤ 2 ^ 63) (sigs : List Signal)
    (hsz : ∀ e ∈ arrivals sigs, 0 ≤ e.EventSize ∧ e.EventSize ≤ M) :
    0 ≤ (readQueue config sigs).1.byteSize ∧
    (readQueue config sigs).1.byteSize < config.MaxBufferSize + M ∧
    wrapInt (readQueue config sigs).1.byteSize = (readQueue config sigs).1.byteSize := by
  have key : ∀ (l : List Signal) (s : BatcherState) (flushed : List (List Event)),
      (∀ e ∈ arrivals l, 0 ≤ e.EventSize ∧ e.EventSize ≤ M) →
      0 ≤ s.byteSize → s.byteSize < config.MaxBufferSize + M →
      0 ≤ (readQueueFrom config s flushed l).1.byteSize ∧
        (readQueueFrom config s flushed l).1.byteSize < config.MaxBufferSize + M := by
    intro l
    induction l using List.rec with
    | nil => intro s flushed _ h0 h1; exact ⟨h0, h1⟩
    | cons sig rest ih =>
      intro s flushed hl h0 h1
      rw [arrivals_cons] at hl
      obtain ⟨g0, g1⟩ := readQueueStep_range config hS M s sig
        (fun e he => hl e (List.mem_append_left _ he)) h0 h1
      have hrest : ∀ e ∈ arrivals rest, 0 ≤ e.EventSize ∧ e.EventSize ≤ M :=
        fun e he => hl e (List.mem_append_right _ he)
      cases hr : readQueueStep config s sig with
      | mk s1 out =>
        rw [hr] at g0 g1
        cases out with
        | none =>
          simp only [readQueueFrom, hr]
          exact ih s1 flushed hrest g0 g1
        | some b =>
          simp only [readQueueFrom, hr]
          exact ih s1 (flushed ++ [b]) hrest g0 g1
  have hrun : 0 ≤ (readQueue config sigs).1.byteSize ∧
      (readQueue config sigs).1.byteSize < config.MaxBufferSize + M :=
    key sigs initialState [] hsz (by simp [initialState])
      (by simp only [initialState]; omega)
  obtain ⟨r0, r1⟩ := hrun
  exact ⟨r0, r1, wrapInt_of_range _ (by omega) (by omega)⟩

/-- C4: with the size threshold 0, which `checkConfig` leaves in the
configuration when `NR_MAX_BUFFER_SIZE` is `0` or does not parse (`strconv.Atoi`
then returns 0), the first event to arrive
finds the counter 0 at the threshold, and the size check hands the empty
buffer to `flushBuffer`: an empty batch is flushed, and the array encoded for
it is empty. -/
theorem readQueue_flushes_empty_batch :
    (checkConfig (envOf [("NR_MAX_BUFFER_SIZE", "0")]) exampleConfig).toOption =
      some { exampleConfig with MaxBufferSize := 0 } ∧
    (checkConfig (envOf [("NR_MAX_BUFFER_SIZE", "100KB")]) exampleConfig).toOption =
      some { exampleConfig with MaxBufferSize := 0 } ∧
    (checkConfig (envOf (("NR_MAX_BUFFER_SIZE", "0") :: requiredEnv)) zeroConfig).toOption.map
        Config.MaxBufferSize = some 0 ∧
    (checkConfig (envOf (("NR_MAX_BUFFER_SIZE", "100KB") :: requiredEnv))
        zeroConfig).toOption.map Config.MaxBufferSize = some 0 ∧
    readQueue { exampleConfig with MaxBufferSize := 0 } [.msg ⟨exampleObject, 158, 0⟩] =
      ({ buffer := [⟨exampleObject, 158, 0⟩], byteSize := 158 }, [[]]) ∧
    flushBufferArray [] = [] := by
  refine ⟨by decide, by decide, by decide, by decide, by decide, by decide⟩

/-! ## Configuration overlay -/

theorem wrapInt_default : wrapInt (maxBufferDefault * 1024) = 102400 := by decide

theorem overlayInterval_fields (getenv : String → String) (c : Config) :
    (overlayInterval getenv c).MaxBufferSize = c.MaxBufferSize ∧
    (overlayInterval getenv c).ProxyURL = c.ProxyURL ∧
    (overlayInterval getenv c).InsightsURL = c.InsightsURL ∧
    (overlayInterval getenv c).InsightsKey = c.InsightsKey ∧
    (overlayInterval getenv c).Port = c.Port ∧
    (overlayInterval getenv c).Interval =
      (if getenv "NR_INTERVAL" ≠ "" then getenv "NR_INTERVAL"
      else if c.Interval = "" then "30s" else c.Interval) := by
  unfold overlayInterval
  split_ifs <;> exact ⟨rfl, rfl, rfl, rfl, rfl, rfl⟩

theorem overlayDebug_fields (getenv : String → String) (c : Config) :
    (overlayDebug getenv c).MaxBufferSize = c.MaxBufferSize ∧
    (overlayDebug getenv c).ProxyURL = c.ProxyURL ∧
    (overlayDebug getenv c).InsightsURL = c.InsightsURL ∧
    (overlayDebug getenv c).InsightsKey = c.InsightsKey ∧
    (overlayDebug getenv c).Port = c.Port ∧
    (overlayDebug getenv c).Interval = c.Interval := by
  unfold overlayDebug
  split_ifs <;> exact ⟨rfl, rfl, rfl, rfl, rfl, rfl⟩

theorem overlayMaxBufferSize_fields (getenv : String → String) (c : Config) :
    (overlayMaxBufferSize getenv c).MaxBufferSize =
      (if getenv "NR_MAX_BUFFER_SIZE" ≠ "" then
        wrapInt ((Atoi (getenv "NR_MAX_BUFFER_SIZE")).1 * 1024)
      else if c.MaxBufferSize = 0 then 102400
      else c.MaxBufferSize) ∧
    (overlayMaxBufferSize getenv c).ProxyURL = c.ProxyURL ∧
    (overlayMaxBufferSize getenv c).InsightsURL = c.InsightsURL ∧
    (overlayMaxBufferSize getenv c).InsightsKey = c.InsightsKey ∧
    (overlayMaxBufferSize getenv c).Port = c.Port ∧
    (overlayMaxBufferSize getenv c).Interval = c.Interval := by
  unfold overlayMaxBufferSize
  split_ifs
  · exact ⟨rfl, rfl, rfl, rfl, rfl, rfl⟩
  · exact ⟨wrapInt_default, rfl, rfl, rfl, rfl, rfl⟩
  · exact ⟨rfl, rfl, rfl, rfl, rfl, rfl⟩

theorem overlayMaxRequestRetries_fields (getenv : String → String) (c : Config) :
    (overlayMaxRequestRetries getenv c).MaxBufferSize = c.MaxBufferSize ∧
    (overlayMaxRequestRetries getenv c).ProxyURL = c.ProxyURL ∧
    (overlayMaxRequestRetries getenv c).InsightsURL = c.InsightsURL ∧
    (overlayMaxRequestRetries getenv c).InsightsKey = c.InsightsKey ∧
    (overlayMaxRequestRetries getenv c).Port = c.Port ∧
    (overlayMaxRequestRetries getenv c).Interval = c.Interval := by
  unfold overlayMaxRequestRetries
  split_ifs <;> exact ⟨rfl, rfl, rfl, rfl, rfl, rfl⟩

theorem overlayProxyURL_fields (getenv : String → String) (c : Config) :
    (overlayProxyURL getenv c).MaxBufferSize = c.MaxBufferSize ∧
    (overlayProxyURL getenv c).ProxyURL = c.ProxyURL ∧
    (overlayProxyURL getenv c).InsightsURL =
      (if getenv "NR_PROXY_URL" ≠ "" then getenv "NR_PROXY_URL" else c.InsightsURL) ∧
    (overlayProxyURL getenv c).InsightsKey = c.InsightsKey ∧
    (overlayProxyURL getenv c).Port = c.Port ∧
    (overlayProxyURL getenv c).Interval = c.Interval := by
  unfold overlayProxyURL
  split_ifs <;> exact ⟨rfl, rfl, rfl, rfl, rfl, rfl⟩

theorem overlayCustomAttrs_fields (getenv : String → String) (c : Config) :
    (overlayCustomAttrs getenv c).MaxBufferSize = c.MaxBufferSize ∧
    (overlayCustomAttrs getenv c).ProxyURL = c.ProxyURL ∧
    (overlayCustomAttrs getenv c).InsightsURL = c.InsightsURL ∧
    (overlayCustomAttrs getenv c).InsightsKey = c.InsightsKey ∧
    (overlayCustomAttrs getenv c).Port = c.Port ∧
    (overlayCustomAttrs getenv c).Interval = c.Interval := by
  unfold overlayCustomAttrs
  split_ifs <;> exact ⟨rfl, rfl, rfl, rfl, rfl, rfl⟩

theorem overlayInsightsURL_fields (getenv : String → String) (c c1 : Config)
    (h : overlayInsightsURL getenv c = .ok c1) :
    c1.MaxBufferSize = c.MaxBufferSize ∧ c1.ProxyURL = c.ProxyURL ∧
    c1.InsightsURL =
      (if getenv "NR_INSIGHTS_URL" ≠ "" then getenv "NR_INSIGHTS_URL" else c.InsightsURL) ∧
    c1.InsightsKey = c.InsightsKey ∧ c1.Port = c.Port ∧ c1.Interval = c.Interval := by
  unfold overlayInsightsURL at h
  split_ifs at h with h1 h2
  · simp only [Except.ok.injEq] at h
    subst h
    simp [h1]
  · simp only [Except.ok.injEq] at h
    subst h
    simp [h1]

theorem overlayInsightsKey_fields (getenv : String → String) (c c1 : Config)
    (h : overlayInsightsKey getenv c = .ok c1) :
    c1.MaxBufferSize = c.MaxBufferSize ∧ c1.ProxyURL = c.ProxyURL ∧
    c1.InsightsURL = c.InsightsURL ∧
    c1.InsightsKey =
      (if getenv "NR_INSIGHTS_KEY" ≠ "" then getenv "NR_INSIGHTS_KEY" else c.InsightsKey) ∧
    c1.Port = c.Port ∧ c1.Interval = c.Interval := by
  unfold overlayInsightsKey at h
  split_ifs at h with h1 h2
  · simp only [Except.ok.injEq] at h
    subst h
    simp [h1]
  · simp only [Except.ok.injEq] at h
    subst h
    simp [h1]

theorem overlayPort_fields (getenv : String → String) (c c1 : Config)
    (h : overlayPort getenv c = .ok c1) :
    c1.MaxBufferSize = c.MaxBufferSize ∧ c1.ProxyURL = c.ProxyURL ∧
    c1.InsightsURL = c.InsightsURL ∧ c1.InsightsKey = c.InsightsKey ∧
    c1.Port = (if getenv "NR_PORT" ≠ "" then getenv "NR_PORT" else c.Port) ∧
    c1.Interval = c.Interval := by
  unfold overlayPort at h
  split_ifs at h with h1 h2
  · simp only [Except.ok.injEq] at h
    subst h
    simp [h1]
  · simp only [Except.ok.injEq] at h
    subst h
    simp [h1]

/-- What `checkConfig` leaves in the configuration when it does not end the
process: the fields in terms of the file's value and the environment. -/
theorem checkConfig_ok (getenv : String → String) (config c : Config)
    (h : checkConfig getenv config = .ok c) :
    c.MaxBufferSize =
      (if getenv "NR_MAX_BUFFER_SIZE" ≠ "" then
        wrapInt ((Atoi (getenv "NR_MAX_BUFFER_SIZE")).1 * 1024)
      else if config.MaxBufferSize = 0 then 102400
      else config.MaxBufferSize) ∧
    c.ProxyURL = config.ProxyURL ∧
    c.InsightsURL =
      (if getenv "NR_PROXY_URL" ≠ "" then getenv "NR_PROXY_URL"
      else if getenv "NR_INSIGHTS_URL" ≠ "" then getenv "NR_INSIGHTS_URL"
      else config.InsightsURL) ∧
    c.InsightsKey =
      (if getenv "NR_INSIGHTS_KEY" ≠ "" then getenv "NR_INSIGHTS_KEY" else config.InsightsKey) ∧
    c.Port = (if getenv "NR_PORT" ≠ "" then getenv "NR_PORT" else config.Port) ∧
    c.Interval =
      (if getenv "NR_INTERVAL" ≠ "" then getenv "NR_INTERVAL"
      else if config.Interval = "" then "30s" else config.Interval) := by
  unfold checkConfig at h
  cases h1 : overlayInsightsURL getenv config with
  | error e => simp [h1] at h
  | ok c1 =>
    cases h2 : overlayInsightsKey getenv c1 with
    | error e => simp [h1, h2] at h
    | ok c2 =>
      cases h3 : overlayPort getenv c2 with
      | error e => simp [h1, h2, h3] at h
      | ok c3 =>
        simp only [h1, h2, h3, Except.ok.injEq] at h
        obtain ⟨a1, a2, a3, a4, a5, a6⟩ := overlayInsightsURL_fields getenv config c1 h1
        obtain ⟨b1, b2, b3, b4, b5, b6⟩ := overlayInsightsKey_fields getenv c1 c2 h2
        obtain ⟨d1, d2, d3, d4, d5, d6⟩ := overlayPort_fields getenv c2 c3 h3
        obtain ⟨i1, i2, i3, i4, i5, i6⟩ := overlayInterval_fields getenv c3
        obtain ⟨j1, j2, j3, j4, j5, j6⟩ := overlayDebug_fields getenv (overlayInterval getenv c3)
        obtain ⟨k1, k2, k3, k4, k5, k6⟩ := overlayMaxBufferSize_fields getenv
          (overlayDebug getenv (overlayInterval getenv c3))
        obtain ⟨l1, l2, l3, l4, l5, l6⟩ := overlayMaxRequestRetries_fields getenv
          (overlayMaxBufferSize getenv (overlayDebug getenv (overlayInterval getenv c3)))
        obtain ⟨m1, m2, m3, m4, m5, m6⟩ := overlayProxyURL_fields getenv
          (overlayMaxRequestRetries getenv
            (overlayMaxBufferSize getenv (overlayDebug getenv (overlayInterval getenv c3))))
        obtain ⟨n1, n2, n3, n4, n5, n6⟩ := overlayCustomAttrs_fields getenv
          (overlayProxyURL getenv (overlayMaxRequestRetries getenv
            (overlayMaxBufferSize getenv (overlayDebug getenv (overlayInterval getenv c3)))))
        subst h
        refine ⟨?_, ?_, ?_, ?_, ?_, ?_⟩
        · rw [n1, m1, l1, k1, j1, i1, d1, b1, a1]
        · rw [n2, m2, l2, k2, j2, i2, d2, b2, a2]
        · rw [n3, m3, l3, k3, j3, i3, d3, b3, a3]
        · rw [n4, m4, l4, k4, j4, i4, d4, b4, a4]
        · rw [n5, m5, l5, k5, j5, i5, d5, b5, a5]
        · rw [n6, m6, l6, k6, j6, i6, d6, b6, a6]

theorem sizeCheck_flushes_iff (config : Config) (s : BatcherState) :
    (sizeCheck config s).2 ≠ none ↔ s.byteSize ≥ config.MaxBufferSize := by
  unfold sizeCheck
  by_cases h : s.byteSize ≥ config.MaxBufferSize <;> simp [h]

/-- C8, as stated, fails: with the settings given through the environment and
`NR_MAX_BUFFER_SIZE` set to 9007199254740992 = 2^53, which `strconv.Atoi`
parses, the multiplication by 1024 overflows the 64-bit `int` and the
threshold is -9223372036854775808, not 2^53 * 1024 = 9223372036854775808. -/
theorem checkConfig_env_buffer_size_wraps :
    Atoi "9007199254740992" = (9007199254740992, true) ∧
    (checkConfig (envOf (("NR_MAX_BUFFER_SIZE", "9007199254740992") :: requiredEnv))
        zeroConfig).toOption.map Config.MaxBufferSize = some (-9223372036854775808) ∧
    (9007199254740992 : Int) * 1024 = 9223372036854775808 := by
  refine ⟨by decide, by decide, by decide⟩

/-- C8, amended: when `checkConfig` returns, a parsable `NR_MAX_BUFFER_SIZE`
value `n` with -2^53 <= n < 2^53 leaves the byte threshold
`Config.MaxBufferSize` at n * 1024, and with the variable unset and no value
from the file the threshold is the default 100 * 1024; this threshold is what
the size check of the batcher compares its byte counter against. -/
theorem checkConfig_buffer_size_in_KB (getenv : String → String) (config c : Config)
    (h : checkConfig getenv config = .ok c) :
    (∀ n : Int, getenv "NR_MAX_BUFFER_SIZE" ≠ "" →
      Atoi (getenv "NR_MAX_BUFFER_SIZE") = (n, true) → -(2 ^ 53) ≤ n → n < 2 ^ 53 →
        c.MaxBufferSize = n * 1024) ∧
    (getenv "NR_MAX_BUFFER_SIZE" = "" → config.MaxBufferSize = 0 →
      c.MaxBufferSize = 100 * 1024) ∧
    (∀ s : BatcherState, (sizeCheck c s).2 ≠ none ↔ s.byteSize ≥ c.MaxBufferSize) := by
  have hsize := (checkConfig_ok getenv config c h).1
  refine ⟨?_, ?_, fun s => sizeCheck_flushes_iff c s⟩
  · intro n hset hn h0 h1
    rw [hsize, if_pos hset, hn]
    exact wrapInt_of_range _ (by omega) (by omega)
  · intro hunset hzero
    rw [hsize, if_neg (by simpa using hunset), if_pos hzero]
    rfl

/-- With the settings given through the environment, `NR_MAX_BUFFER_SIZE=50`
gives the threshold 51200. -/
theorem checkConfig_buffer_size_in_KB_witness :
    checkConfig (envOf (("NR_MAX_BUFFER_SIZE", "50") :: requiredEnv)) zeroConfig =
      .ok { zeroConfig with
            InsightsURL := "https://insights.example/v1/events", InsightsKey := "key"
            Port := ":9000", Interval := "30s", MaxBufferSize := 51200
            MaxRequestRetries := 5 } ∧
    (51200 : Int) = 50 * 1024 :=
  ⟨rfl,
   (checkConfig_buffer_size_in_KB (envOf (("NR_MAX_BUFFER_SIZE", "50") :: requiredEnv))
      zeroConfig
      { zeroConfig with
        InsightsURL := "https://insights.example/v1/events", InsightsKey := "key"
        Port := ":9000", Interval := "30s", MaxBufferSize := 51200
        MaxRequestRetries := 5 } rfl).1 50 (by decide) (by decide) (by decide) (by decide)⟩

/-- C9: with `NR_PROXY_URL` set, `checkConfig` stores the proxy address in the
ingestion URL and leaves the proxy URL as it was (here empty); so it does with
every setting given through the environment, where the proxy address replaces
the ingestion URL that `NR_INSIGHTS_URL` gave. -/
theorem checkConfig_proxy_env_overwrites_insights_url :
    (checkConfig (envOf [("NR_PROXY_URL", "http://proxy.local:3128")]) exampleConfig).toOption =
      some { exampleConfig with InsightsURL := "http://proxy.local:3128", ProxyURL := "" } ∧
    exampleConfig.InsightsURL = "https://insights.example/v1/events" ∧
    exampleConfig.ProxyURL = "" ∧
    (checkConfig (envOf (("NR_PROXY_URL", "http://proxy.local:3128") :: requiredEnv))
        zeroConfig).toOption.map (fun c => (c.InsightsURL, c.ProxyURL)) =
      some ("http://proxy.local:3128", "") ∧
    (checkConfig (envOf requiredEnv) zeroConfig).toOption.map
        (fun c => (c.InsightsURL, c.ProxyURL)) =
      some ("https://insights.example/v1/events", "") := by
  refine ⟨by decide, by decide, by decide, by decide, by decide⟩

/-! ## Extractor -/

set_option maxRecDepth 100000 in
/-- C10: on the line with a full tag followed by a tag that has only a `name`
attribute, the second Metric takes its value and type from the first tag; the
second tag alone on a line gives empty value and type. -/
theorem extractMetrics_keeps_fields_of_earlier_tag :
    extractMetrics "<metric name=\"a\" value=\"1\" type=\"g\"/><metric name=\"b\" />" =
      some [{ MetricName := "a", MetricValue := "1", MetricType := "g" },
            { MetricName := "b", MetricValue := "1", MetricType := "g" }] ∧
    extractMetrics "<metric name=\"z\" value=\"7\" type=\"c\"/><metric name=\"b\" />" =
      some [{ MetricName := "z", MetricValue := "7", MetricType := "c" },
            { MetricName := "b", MetricValue := "7", MetricType := "c" }] ∧
    extractMetrics "<metric name=\"b\" />" =
      some [{ MetricName := "b", MetricValue := "", MetricType := "" }] := by
  refine ⟨by decide, by decide, by decide⟩

theorem untilClose_nil : untilClose [] = none := rfl

theorem prependRun_some (l body tail : List Char) :
    prependRun l (some (body, tail)) = some (l ++ body, tail) := rfl

theorem prependRun_nil (o : Option (List Char × List Char)) : prependRun [] o = o := by
  cases o with
  | none => rfl
  | some p => rfl

theorem prependRun_prependRun (l1 l2 : List Char) (o : Option (List Char × List Char)) :
    prependRun l1 (prependRun l2 o) = prependRun (l1 ++ l2) o := by
  cases o with
  | none => rfl
  | some p => simp [prependRun, List.append_assoc]

/-- A character that is neither `/` nor a newline is taken by the lazy run. -/
theorem untilClose_cons_of_ne (c : Char) (X : List Char) (h1 : c ≠ '/') (h2 : c ≠ '\n') :
    untilClose (c :: X) = prependRun [c] (untilClose X) := by
  cases X with
  | nil => simp [untilClose, prependRun]
  | cons d rest =>
    simp only [untilClose, h1, h2, false_and, if_false]
    cases untilClose (d :: rest) with
    | none => rfl
    | some p => rfl

theorem untilClose_slash_of_ne (d : Char) (X : List Char) (h : d ≠ '>') :
    untilClose ('/' :: d :: X) = prependRun ['/'] (untilClose (d :: X)) := by
  have hn : ¬ ('/' : Char) = '\n' := by decide
  simp only [untilClose, h, hn, and_false, if_false]
  cases untilClose (d :: X) with
  | none => rfl
  | some p => rfl

theorem untilClose_close (X : List Char) : untilClose ('/' :: '>' :: X) = some ([], X) := by
  simp [untilClose]

/-- A run of characters without newline and without `/>` is taken by the lazy
run, unless it ends in `/` and is followed by `>`. -/
theorem untilClose_append (l X : List Char) (hnl : ∀ c ∈ l, c ≠ '\n')
    (hclose : ¬ "/>".toList <:+: l) (hB : l.getLast? = some '/' → X.head? ≠ some '>') :
    untilClose (l ++ X) = prependRun l (untilClose X) := by
  induction l using List.rec with
  | nil => simp [prependRun_nil]
  | cons c rest ih =>
    have hnl' : ∀ x ∈ rest, x ≠ '\n' := fun x hx => hnl x (List.mem_cons_of_mem _ hx)
    have hclose' : ¬ "/>".toList <:+: rest := fun hi =>
      hclose (hi.trans (List.suffix_cons c rest).isInfix)
    have hB' : rest.getLast? = some '/' → X.head? ≠ some '>' := by
      intro hr
      apply hB
      cases rest with
      | nil => simp at hr
      | cons r rs => simpa [List.getLast?_cons_cons] using hr
    have hc : c ≠ '\n' := hnl c (List.mem_cons_self _ _)
    have ih' := ih hnl' hclose' hB'
    by_cases hs : c = '/'
    · subst hs
      cases hrest : rest ++ X with
      | nil =>
        have hr : rest = [] := (List.append_eq_nil.mp hrest).1
        have hx : X = [] := (List.append_eq_nil.mp hrest).2
        subst hr; subst hx
        simp [untilClose, prependRun]
      | cons d tl =>
        have hd : d ≠ '>' := by
          intro hd
          subst hd
          cases rest with
          | nil =>
            simp only [List.nil_append] at hrest
            have := hB (by simp)
            rw [hrest] at this
            simp at this
          | cons r rs =>
            simp only [List.cons_append, List.cons.injEq] at hrest
            obtain ⟨hr, _⟩ := hrest
            subst hr
            exact hclose ⟨[], rs, by simp⟩
        rw [List.cons_append, hrest, untilClose_slash_of_ne d tl hd, ← hrest, ih',
          prependRun_prependRun]
        rfl
    · rw [List.cons_append, untilClose_cons_of_ne c _ hs hc, ih', prependRun_prependRun]
      rfl

/-- A run of characters none of which is `/` or a newline is taken by the
lazy run. -/
theorem untilClose_plain (l X : List Char) (h : ∀ c ∈ l, c ≠ '/' ∧ c ≠ '\n') :
    untilClose (l ++ X) = prependRun l (untilClose X) := by
  induction l using List.rec with
  | nil => simp [prependRun_nil]
  | cons c rest ih =>
    have hc := h c (List.mem_cons_self _ _)
    rw [List.cons_append, untilClose_cons_of_ne c _ hc.1 hc.2,
      ih (fun x hx => h x (List.mem_cons_of_mem _ hx)), prependRun_prependRun]
    rfl

theorem dropLiteral_append (lit s : List Char) : dropLiteral lit (lit ++ s) = some s := by
  induction lit using List.rec with
  | nil => cases s <;> rfl
  | cons l rest ih => simp [dropLiteral, ih]

theorem matchAt_of_untilClose (c : Char) (body rest : List Char) (hc : c ≠ '\n')
    (h : untilClose (body ++ '/' :: '>' :: rest) = some (body, rest)) :
    matchAt ("<metric ".toList ++ (c :: (body ++ '/' :: '>' :: rest))) =
      some ("<metric ".toList ++ c :: body ++ "/>".toList, rest) := by
  unfold matchAt
  rw [dropLiteral_append]
  simp only [hc, if_false, h]

/-- When a literal without `<` is found at the front of `j ++ X`, and `X` is
empty or starts with `<`, the literal lies inside `j`. -/
theorem dropLiteral_inside (lit j X : List Char) (hlit : '<' ∉ lit)
    (hX : X = [] ∨ X.head? = some '<') (h : dropLiteral lit (j ++ X) ≠ none) :
    lit <+: j := by
  induction lit using List.rec generalizing j with
  | nil => exact List.nil_prefix
  | cons l ls ih =>
    have hl : l ≠ '<' := fun e => hlit (by simp [e])
    have hls : '<' ∉ ls := fun e => hlit (List.mem_cons_of_mem _ e)
    cases j with
    | nil =>
      exfalso
      rcases hX with hX | hX
      · subst hX
        exact h rfl
      · cases X with
        | nil => simp at hX
        | cons x xs =>
          simp only [List.head?_cons, Option.some.injEq] at hX
          subst hX
          simp [dropLiteral, hl] at h
    | cons c j' =>
      simp only [List.cons_append, dropLiteral] at h
      by_cases hc : l = c
      · subst hc
        simp only [if_true] at h
        exact (List.prefix_cons_inj l).mpr (ih j' hls h)
      · simp [hc] at h

/-- No match of the pattern starts inside text that does not contain
`<metric `, when a tag or the end of the line follows. -/
theorem matchAt_junk (c : Char) (j X : List Char)
    (hj : ¬ "<metric ".toList <:+: (c :: j)) (hX : X = [] ∨ X.head? = some '<') :
    matchAt (c :: j ++ X) = none := by
  have hd : dropLiteral "<metric ".toList (c :: j ++ X) = none := by
    by_contra hne
    have e : "<metric ".toList = '<' :: "metric ".toList := rfl
    rw [e, List.cons_append] at hne
    simp only [dropLiteral] at hne
    by_cases hc : '<' = c
    · subst hc
      simp only [if_true] at hne
      have hp := dropLiteral_inside "metric ".toList j X (by decide) hX hne
      apply hj
      rw [e]
      exact ((List.prefix_cons_inj '<').mpr hp).isInfix
    · simp [hc] at hne
  unfold matchAt
  rw [hd]

theorem findAllFuel_junk (junk X : List Char) (hj : ¬ "<metric ".toList <:+: junk)
    (hX : X = [] ∨ X.head? = some '<') (fuel : Nat) :
    findAllFuel (junk.length + fuel) (junk ++ X) = findAllFuel fuel X := by
  induction junk using List.rec with
  | nil => simp
  | cons c j ih =>
    have hj' : ¬ "<metric ".toList <:+: j := fun hi =>
      hj (hi.trans (List.suffix_cons c j).isInfix)
    have e : (c :: j).length + fuel = (j.length + fuel) + 1 := by
      simp only [List.length_cons]; omega
    rw [e, List.cons_append]
    simp only [findAllFuel]
    rw [← List.cons_append, matchAt_junk c j X hj hX]
    exact ih hj'

theorem findAllFuel_nil (fuel : Nat) : findAllFuel fuel [] = [] := by
  cases fuel <;> rfl

/-- One round of the attribute loop when the next character is not `/` or
`>`: a name, a value, then the remaining attributes. -/
theorem readAttrs_step (f : Nat) (s s1 : List Char) (c : Char)
    (hs : skipSpace s = c :: s1) (h1 : c ≠ '/') (h2 : c ≠ '>') :
    readAttrs (f + 1) s =
      match readName (c :: s1) with
      | .ok (name, s2) =>
        (match readAttrValue s2 with
         | .ok (value, s3) =>
           (match readAttrs f s3 with
            | .ok attrs => .ok ((name, value) :: attrs)
            | .syntaxError => .syntaxError
            | .unmodelled => .unmodelled)
         | .syntaxError => .syntaxError
         | .unmodelled => .unmodelled)
      | .syntaxError => .syntaxError
      | .unmodelled => .unmodelled := by
  rw [readAttrs, hs]
  split
  · rename_i heq
    simp at heq
  · rename_i heq
    simp only [List.cons.injEq] at heq
    exact absurd heq.1 h1
  · rename_i heq
    simp only [List.cons.injEq] at heq
    exact absurd heq.1 h2
  · rename_i c' s1' _ _ heq
    simp only [List.cons.injEq] at heq
    obtain ⟨hc, hs1⟩ := heq
    subst hc; subst hs1
    rfl

theorem Plain.quiet {l : List Char} (h : Plain l) : Quiet l := by
  refine ⟨fun c hc => (h c hc).2, ?_⟩
  rintro ⟨s, t, hst⟩
  have hmem : '/' ∈ l := by
    rw [← hst]
    simp
  exact (h '/' hmem).1 rfl

theorem Plain.getLast_ne {l : List Char} (h : Plain l) : l.getLast? ≠ some '/' := by
  intro hl
  exact (h '/' (List.mem_of_getLast?_eq_some hl)).1 rfl

theorem Quiet.tail {c : Char} {l : List Char} (h : Quiet (c :: l)) : Quiet l :=
  ⟨fun x hx => h.1 x (List.mem_cons_of_mem _ hx),
    fun hi => h.2 (hi.trans (List.suffix_cons c l).isInfix)⟩

/-- Two texts without `/>` joined have no `/>`, unless the first ends in `/`
and the second starts with `>`. -/
theorem Quiet.append {l1 l2 : List Char} (h1 : Quiet l1) (h2 : Quiet l2)
    (hB : l1.getLast? = some '/' → l2.head? ≠ some '>') : Quiet (l1 ++ l2) := by
  induction l1 using List.rec with
  | nil => simpa using h2
  | cons c rest ih =>
    have hB' : rest.getLast? = some '/' → l2.head? ≠ some '>' := by
      intro hr
      apply hB
      cases rest with
      | nil => simp at hr
      | cons r rs => simpa [List.getLast?_cons_cons] using hr
    have ih' := ih h1.tail hB'
    refine ⟨?_, ?_⟩
    · intro x hx
      rcases List.mem_append.mp hx with hx | hx
      · exact h1.1 x hx
      · exact h2.1 x hx
    · intro hi
      rw [List.cons_append] at hi
      rcases List.infix_cons_iff.mp hi with hpre | hin
      · obtain ⟨t, ht⟩ := hpre
        have e : "/>".toList = ['/', '>'] := rfl
        rw [e] at ht
        simp only [List.cons_append, List.nil_append, List.cons.injEq] at ht
        obtain ⟨hc, ht⟩ := ht
        subst hc
        cases rest with
        | nil =>
          simp only [List.nil_append] at ht
          have hh := hB (by simp)
          rw [← ht] at hh
          simp at hh
        | cons r rs =>
          simp only [List.cons_append, List.cons.injEq] at ht
          obtain ⟨hr, _⟩ := ht
          subst hr
          exact h1.2 ⟨[], rs, by simp⟩
      · exact ih'.2 hin

theorem Plain.append_quiet {l1 l2 : List Char} (h1 : Plain l1) (h2 : Quiet l2) :
    Quiet (l1 ++ l2) :=
  h1.quiet.append h2 (fun hl => absurd hl h1.getLast_ne)

theorem IsBlank.to_plain {l : List Char} (h : IsBlank l) : Plain l := by
  intro c hc
  rcases h c hc with e | e | e <;> subst e <;> decide

theorem isNameByte_ascii {c : Char} (h : isNameByte c = true) : c.toNat < 128 := by
  have hZ : 'Z'.toNat = 90 := rfl
  have hz : 'z'.toNat = 122 := rfl
  have h9 : '9'.toNat = 57 := rfl
  simp only [isNameByte, Bool.or_eq_true, Bool.and_eq_true, decide_eq_true_eq, hZ, hz, h9] at h
  rcases h with (((((h | h) | h) | h) | h) | h) | h
  · omega
  · omega
  · omega
  · subst h; decide
  · subst h; decide
  · subst h; decide
  · subst h; decide

theorem isNameByte_ne {c : Char} (h : isNameByte c = true) :
    c ≠ '/' ∧ c ≠ '\n' ∧ c ≠ '>' ∧ isSpace c = false := by
  have h1 : c ≠ '/' := by intro e; subst e; revert h; decide
  have h2 : c ≠ '\n' := by intro e; subst e; revert h; decide
  have h3 : c ≠ '>' := by intro e; subst e; revert h; decide
  have h4 : c ≠ ' ' := by intro e; subst e; revert h; decide
  have h5 : c ≠ '\r' := by intro e; subst e; revert h; decide
  have h6 : c ≠ '\t' := by intro e; subst e; revert h; decide
  refine ⟨h1, h2, h3, ?_⟩
  simp [isSpace, h4, h5, h2, h6]

/-- What a simple name is: a first character that can start a name, then name
characters, none a colon. -/
theorem KeyOK.cons {k : List Char} (hk : KeyOK k) :
    ∃ c rest, k = c :: rest ∧ isNameStart c = true ∧
      ∀ x ∈ c :: rest, isNameByte x = true ∧ x ≠ ':' := by
  unfold KeyOK isSimpleName at hk
  cases k with
  | nil => simp at hk
  | cons c rest =>
    simp only [Bool.and_eq_true, List.all_eq_true, bne_iff_ne, ne_eq] at hk
    exact ⟨c, rest, rfl, hk.1, hk.2⟩

theorem KeyOK.key_plain {k : List Char} (hk : KeyOK k) : Plain k := by
  obtain ⟨c, rest, rfl, _, hall⟩ := hk.cons
  intro x hx
  exact ⟨(isNameByte_ne (hall x hx).1).1, (isNameByte_ne (hall x hx).1).2.1⟩

theorem plainChar_ne {q c : Char} (h : plainChar q c = true) :
    c ≠ q ∧ c ≠ '<' ∧ c ≠ '&' ∧ c ≠ '\r' ∧ c ≠ '\n' ∧ isInCharacterRange c = true := by
  simp only [plainChar, Bool.and_eq_true, bne_iff_ne, ne_eq] at h
  obtain ⟨⟨⟨⟨⟨h1, h2⟩, h3⟩, h4⟩, h5⟩, h6⟩ := h
  exact ⟨h1, h2, h3, h4, h5, h6⟩

theorem entityChar_cases {name : List Char} {ch : Char} (h : entityChar name = some ch) :
    (name = "lt".toList ∧ ch = '<') ∨ (name = "gt".toList ∧ ch = '>') ∨
    (name = "amp".toList ∧ ch = '&') ∨ (name = "apos".toList ∧ ch = '\'') ∨
    (name = "quot".toList ∧ ch = '"') := by
  unfold entityChar at h
  split_ifs at h with h1 h2 h3 h4 h5
  · exact Or.inl ⟨h1, (Option.some.inj h).symm⟩
  · exact Or.inr (Or.inl ⟨h2, (Option.some.inj h).symm⟩)
  · exact Or.inr (Or.inr (Or.inl ⟨h3, (Option.some.inj h).symm⟩))
  · exact Or.inr (Or.inr (Or.inr (Or.inl ⟨h4, (Option.some.inj h).symm⟩)))
  · exact Or.inr (Or.inr (Or.inr (Or.inr ⟨h5, (Option.some.inj h).symm⟩)))

theorem isRefDigit_ne_newline {hex : Bool} {d : Char} (h : isRefDigit hex d = true) :
    d ≠ '\n' := by
  intro e
  subst e
  cases hex <;> simp [isRefDigit, Char.isDigit] at h

/-- The text of an encoded value holds no newline. -/
theorem Encodes.no_newline {q : Char} {raw v : List Char} (h : Encodes q raw v) :
    ∀ c ∈ raw, c ≠ '\n' := by
  induction h with
  | nil => simp
  | plain c raw v hc _ ih =>
    intro x hx
    rcases List.mem_cons.mp hx with e | hx
    · subst e
      exact (plainChar_ne hc).2.2.2.2.1
    · exact ih x hx
  | named name ch raw v hname _ ih =>
    intro x hx
    have hn : ∀ y ∈ name, y ≠ '\n' := by
      rcases entityChar_cases hname with h | h | h | h | h <;> rw [h.1] <;> decide
    simp only [List.mem_cons, List.mem_append] at hx
    rcases hx with e | hx | e | hx
    · subst e; decide
    · exact hn x hx
    · subst e; decide
    · exact ih x hx
  | code hex ds ch raw v _ hds _ _ _ ih =>
    intro x hx
    simp only [List.mem_cons, List.mem_append] at hx
    rcases hx with e | e | hx | hx | e | hx
    · subst e; decide
    · subst e; decide
    · cases hex <;> simp [refMark] at hx
      subst hx; decide
    · exact isRefDigit_ne_newline (hds x hx)
    · subst e; decide
    · exact ih x hx
  | lineEnd raw v _ ih =>
    intro x hx
    rcases List.mem_cons.mp hx with e | hx
    · subst e; decide
    · exact ih x hx

theorem quote_plain {q : Char} (hq : q = '"' ∨ q = '\'') : Plain [q] := by
  unfold Plain
  rcases hq with e | e <;> subst e <;> decide

/-- The lazy run passes over a whole attribute. -/
theorem attrText_quiet (a : List Char × AttrLayout) (h : AttrOK a) {X : List Char}
    (hX : Quiet X) : Quiet (attrText a ++ X) := by
  obtain ⟨hk, hgap, hpre, hpost, hq, henc, hclose⟩ := h
  have hqX : Quiet ([a.2.quote] ++ X) := (quote_plain hq).append_quiet hX
  have hraw : Quiet (a.2.raw ++ ([a.2.quote] ++ X)) := by
    refine Quiet.append ⟨henc.no_newline, hclose⟩ hqX ?_
    intro _
    rcases hq with e | e <;> rw [e] <;> simp
  have e : attrText a ++ X =
      a.2.gap ++ (a.1 ++ (a.2.pre ++ (['='] ++ (a.2.post ++ ([a.2.quote] ++
        (a.2.raw ++ ([a.2.quote] ++ X))))))) := by
    simp [attrText, List.append_assoc]
  rw [e]
  exact hgap.to_plain.append_quiet (hk.key_plain.append_quiet (hpre.to_plain.append_quiet
    (Plain.append_quiet (by unfold Plain; decide) (hpost.to_plain.append_quiet
      ((quote_plain hq).append_quiet hraw)))))

theorem attrs_quiet (attrs : List (List Char × AttrLayout)) (h : ∀ a ∈ attrs, AttrOK a)
    {X : List Char} (hX : Quiet X) : Quiet ((attrs.map attrText).flatten ++ X) := by
  induction attrs using List.rec with
  | nil => simpa using hX
  | cons a rest ih =>
    simp only [List.map_cons, List.flatten_cons, List.append_assoc]
    exact attrText_quiet a (h a (List.mem_cons_self _ _))
      (ih (fun x hx => h x (List.mem_cons_of_mem _ hx)))

theorem attrText_ne_nil (a : List Char × AttrLayout) (X : List Char) : attrText a ++ X ≠ [] := by
  simp [attrText]

/-- The pattern matches a tag of well-written attributes exactly, whatever
follows it. -/
theorem matchAt_tagChars (a : List Char × AttrLayout) (attrs : List (List Char × AttrLayout))
    (pad : List Char) (h : ∀ x ∈ a :: attrs, AttrOK x) (hpad : IsBlank pad)
    (rest : List Char) :
    matchAt (tagChars (a :: attrs) pad ++ rest) = some (tagChars (a :: attrs) pad, rest) := by
  have hq : Quiet (((a :: attrs).map attrText).flatten ++ pad) := by
    have := attrs_quiet (a :: attrs) h (hpad.to_plain.quiet)
    exact this
  cases hb : ((a :: attrs).map attrText).flatten ++ pad with
  | nil =>
    exfalso
    simp only [List.map_cons, List.flatten_cons, List.append_assoc] at hb
    exact attrText_ne_nil a _ hb
  | cons c body =>
    rw [hb] at hq
    have hc : c ≠ '\n' := hq.1 c (List.mem_cons_self _ _)
    have hbody : untilClose (body ++ '/' :: '>' :: rest) = some (body, rest) := by
      rw [untilClose_append body _ hq.tail.1 hq.tail.2 (by intro _; simp), untilClose_close,
        prependRun_some, List.append_nil]
    have hm := matchAt_of_untilClose c body rest hc hbody
    have e1 : tagChars (a :: attrs) pad ++ rest =
        "<metric ".toList ++ (c :: (body ++ '/' :: '>' :: rest)) := by
      have : tagChars (a :: attrs) pad ++ rest =
          "<metric ".toList ++ ((((a :: attrs).map attrText).flatten ++ pad) ++
            ('/' :: '>' :: rest)) := by
        simp [tagChars, List.append_assoc]
      rw [this, hb]
      rfl
    have e2 : tagChars (a :: attrs) pad = "<metric ".toList ++ c :: body ++ "/>".toList := by
      have : tagChars (a :: attrs) pad =
          "<metric ".toList ++ ((((a :: attrs).map attrText).flatten ++ pad) ++
            "/>".toList) := by
        simp [tagChars, List.append_assoc]
      rw [this, hb]
      simp [List.append_assoc]
    rw [e1, hm, e2]

theorem tagChars_cons (attrs : List (List Char × AttrLayout)) (pad : List Char) :
    ∃ tl, tagChars attrs pad = '<' :: tl := ⟨_, rfl⟩

theorem findAllFuel_tag (a : List Char × AttrLayout) (attrs : List (List Char × AttrLayout))
    (pad : List Char) (h : ∀ x ∈ a :: attrs, AttrOK x) (hpad : IsBlank pad)
    (rest : List Char) (fuel : Nat) :
    findAllFuel (fuel + 1) (tagChars (a :: attrs) pad ++ rest) =
      tagChars (a :: attrs) pad :: findAllFuel fuel rest := by
  have hm := matchAt_tagChars a attrs pad h hpad rest
  obtain ⟨tl, htl⟩ := tagChars_cons (a :: attrs) pad
  rw [htl] at hm ⊢
  rw [List.cons_append] at hm ⊢
  simp only [findAllFuel, hm]

theorem MetricTag.attrs_ok (t : MetricTag) (h : t.Clean) :
    ∃ a rest, t.attrs = a :: rest ∧ ∀ x ∈ a :: rest, AttrOK x := by
  obtain ⟨hall, _, _, hname, _, _⟩ := h
  cases hattrs : t.attrs with
  | nil =>
    rw [hattrs] at hname
    simp at hname
  | cons a rest =>
    rw [hattrs] at hall
    exact ⟨a, rest, rfl, hall⟩

theorem lineChars_nil (trailer : String) : lineChars [] trailer = trailer.toList := by
  simp [lineChars]

theorem lineChars_cons (seg : String × MetricTag) (segs : List (String × MetricTag))
    (trailer : String) :
    lineChars (seg :: segs) trailer = seg.1.toList ++ (seg.2.text ++ lineChars segs trailer) := by
  simp [lineChars, List.append_assoc]

/-- The matches of the pattern in a line of well-written tags are the tags,
in order. -/
theorem findAllFuel_lineChars (segs : List (String × MetricTag)) (trailer : String)
    (hsegs : ∀ seg ∈ segs, NoOpen seg.1 ∧ seg.2.Clean) (htrailer : NoOpen trailer) :
    ∀ fuel, (lineChars segs trailer).length ≤ fuel →
      findAllFuel fuel (lineChars segs trailer) = segs.map (fun seg => seg.2.text) := by
  induction segs using List.rec with
  | nil =>
    intro fuel hfuel
    rw [lineChars_nil] at hfuel ⊢
    obtain ⟨k, rfl⟩ := Nat.exists_eq_add_of_le hfuel
    have h := findAllFuel_junk trailer.toList [] htrailer (Or.inl rfl) k
    rw [List.append_nil] at h
    rw [h, findAllFuel_nil]
    rfl
  | cons seg rest ih =>
    intro fuel hfuel
    have hseg := hsegs seg (List.mem_cons_self _ _)
    have ih' := ih (fun x hx => hsegs x (List.mem_cons_of_mem _ hx))
    obtain ⟨a, attrs, hattrs, hok⟩ := seg.2.attrs_ok hseg.2
    rw [lineChars_cons] at hfuel ⊢
    unfold MetricTag.text at hfuel ⊢
    rw [hattrs] at hfuel ⊢
    obtain ⟨tl, htl⟩ := tagChars_cons (a :: attrs) seg.2.pad
    have hlen : 1 ≤ (tagChars (a :: attrs) seg.2.pad).length := by
      rw [htl]; simp
    simp only [List.length_append] at hfuel
    obtain ⟨k, hk⟩ := Nat.exists_eq_add_of_le hfuel
    have hk' : fuel = seg.1.toList.length +
        (((tagChars (a :: attrs) seg.2.pad).length - 1 + (lineChars rest trailer).length + k)
          + 1) := by omega
    rw [hk', findAllFuel_junk seg.1.toList _ hseg.1
      (Or.inr (by rw [htl]; rfl)), findAllFuel_tag a attrs seg.2.pad hok hseg.2.2.1]
    rw [ih' _ (by omega)]
    simp [MetricTag.text, hattrs]

theorem skipSpace_blank (l Y : List Char) (h : IsBlank l) :
    skipSpace (l ++ Y) = skipSpace Y := by
  induction l using List.rec with
  | nil => rfl
  | cons c rest ih =>
    have hc : isSpace c = true := by
      rcases h c (List.mem_cons_self _ _) with e | e | e <;> subst e <;> decide
    rw [List.cons_append]
    simp only [skipSpace, hc, if_true]
    exact ih (fun x hx => h x (List.mem_cons_of_mem _ hx))

theorem skipSpace_cons_of_not_space (c : Char) (Y : List Char) (h : isSpace c = false) :
    skipSpace (c :: Y) = c :: Y := by
  simp [skipSpace, h]

theorem spanName_cons_of_not_name (c : Char) (Y : List Char)
    (h : (isNameByte c || decide (128 ≤ c.toNat)) = false) :
    spanName (c :: Y) = ([], c :: Y) := by
  simp only [spanName, h]
  rfl

/-- A name stops before white space followed by `=`. -/
theorem spanName_blank_eq (pre W : List Char) (h : IsBlank pre) :
    spanName (pre ++ '=' :: W) = ([], pre ++ '=' :: W) := by
  cases pre with
  | nil => exact spanName_cons_of_not_name '=' W (by decide)
  | cons c rest =>
    rw [List.cons_append]
    apply spanName_cons_of_not_name
    rcases h c (List.mem_cons_self _ _) with e | e | e <;> subst e <;> decide

theorem spanName_cons_of_name (c : Char) (Y : List Char) (h : isNameByte c = true) :
    spanName (c :: Y) = (c :: (spanName Y).1, (spanName Y).2) := by
  simp [spanName, h]

theorem spanName_name (k Z : List Char) (hall : ∀ x ∈ k, isNameByte x = true)
    (hZ : spanName Z = ([], Z)) : spanName (k ++ Z) = (k, Z) := by
  induction k using List.rec with
  | nil => exact hZ
  | cons c rest ih =>
    rw [List.cons_append, spanName_cons_of_name c _ (hall c (List.mem_cons_self _ _)),
      ih (fun x hx => hall x (List.mem_cons_of_mem _ hx))]

theorem KeyOK.readName_eq {k : List Char} (hk : KeyOK k) (Z : List Char)
    (hZ : spanName Z = ([], Z)) : readName (k ++ Z) = .ok (k, Z) := by
  obtain ⟨c, rest, rfl, hstart, hall⟩ := hk.cons
  have hs := spanName_name (c :: rest) Z (fun x hx => (hall x hx).1) hZ
  have hany : (c :: rest).any (fun x => decide (128 ≤ x.toNat) || x == ':') = false := by
    rw [List.any_eq_false]
    intro x hx
    have h1 := isNameByte_ascii (hall x hx).1
    have h2 := (hall x hx).2
    simp only [Bool.or_eq_true, decide_eq_true_eq, beq_iff_eq, not_or, not_le]
    exact ⟨h1, h2⟩
  unfold readName
  rw [hs]
  simp only [hany, Bool.false_eq_true, if_false, hstart, if_true]

theorem KeyOK.skipSpace_eq {k : List Char} (hk : KeyOK k) (Y : List Char) :
    ∃ c s1, skipSpace (k ++ Y) = c :: s1 ∧ c :: s1 = k ++ Y ∧ c ≠ '/' ∧ c ≠ '>' := by
  obtain ⟨c, rest, rfl, _, hall⟩ := hk.cons
  have hc := isNameByte_ne (hall c (List.mem_cons_self _ _)).1
  exact ⟨c, rest ++ Y, skipSpace_cons_of_not_space c _ hc.2.2.2, rfl, hc.1, hc.2.2.1⟩

theorem readReference_named (name : List Char) (ch : Char) (Y : List Char)
    (h : entityChar name = some ch) : readReference (name ++ ';' :: Y) = some (ch, Y) := by
  rcases entityChar_cases h with e | e | e | e | e <;> obtain ⟨e1, e2⟩ := e <;>
    subst e1 <;> subst e2 <;> rfl

theorem spanDigits_append (hex : Bool) (ds Y : List Char)
    (hds : ∀ d ∈ ds, isRefDigit hex d = true) :
    spanDigits hex (ds ++ ';' :: Y) = (ds, ';' :: Y) := by
  induction ds using List.rec with
  | nil =>
    have h : isRefDigit hex ';' = false := by cases hex <;> decide
    simp [spanDigits, h]
  | cons d rest ih =>
    have hd := hds d (List.mem_cons_self _ _)
    rw [List.cons_append]
    simp only [spanDigits, hd, if_true, ih (fun x hx => hds x (List.mem_cons_of_mem _ hx))]

theorem isInCharacterRange_code {ch : Char} (h : isInCharacterRange ch = true) :
    ch.toNat ≤ 0x10FFFF ∧ ¬ (0xD800 ≤ ch.toNat ∧ ch.toNat ≤ 0xDFFF) := by
  simp only [isInCharacterRange, Bool.or_eq_true, Bool.and_eq_true, decide_eq_true_eq] at h
  omega

theorem runeOf_toNat {ch : Char} (h : isInCharacterRange ch = true) : runeOf ch.toNat = ch := by
  unfold runeOf
  rw [if_neg (isInCharacterRange_code h).2, Char.ofNat_toNat]

theorem isRefDigit_false_ne_x {d : Char} (h : isRefDigit false d = true) : d ≠ 'x' := by
  intro e
  subst e
  revert h
  decide

theorem readReference_code (hex : Bool) (ds : List Char) (ch : Char) (Y : List Char)
    (hne : ds ≠ []) (hds : ∀ d ∈ ds, isRefDigit hex d = true)
    (hval : digitsValue (if hex then 16 else 10) ds = ch.toNat)
    (hch : isInCharacterRange ch = true) :
    readReference ('#' :: (refMark hex ++ (ds ++ ';' :: Y))) = some (ch, Y) := by
  have hle := (isInCharacterRange_code hch).1
  have hempty : ds.isEmpty = false := by
    cases ds with
    | nil => exact absurd rfl hne
    | cons d rest => rfl
  cases hex with
  | false =>
    have hx : decide ((ds ++ ';' :: Y).head? = some 'x') = false := by
      cases ds with
      | nil => exact absurd rfl hne
      | cons d rest =>
        have := isRefDigit_false_ne_x (hds d (List.mem_cons_self _ _))
        simp [this]
    simp only [Bool.false_eq_true, if_false] at hval
    simp only [readReference, refMark, Bool.false_eq_true, if_false, List.nil_append, hx,
      spanDigits_append false ds Y hds, hempty, hval, hle, if_true, runeOf_toNat hch]
  | true =>
    simp only [if_true] at hval
    simp only [readReference, refMark, if_true, List.cons_append, List.nil_append,
      List.head?_cons, decide_True, List.tail_cons, spanDigits_append true ds Y hds, hempty,
      Bool.false_eq_true, if_false, hval, hle, runeOf_toNat hch]

/-- The decoder reads an encoded value as the value it stands for, up to the
closing quote. -/
theorem readText_encodes {q : Char} {raw v : List Char} (hq : q = '"' ∨ q = '\'')
    (h : Encodes q raw v) :
    ∀ (X : List Char) (fuel : Nat) (b1 : Char), raw.length < fuel →
      readText q fuel b1 (raw ++ q :: X) = .ok (v, X) := by
  have hq1 : ¬ q = '<' := by rcases hq with e | e <;> subst e <;> decide
  have hq2 : ¬ '&' = q := by rcases hq with e | e <;> subst e <;> decide
  induction h with
  | nil =>
    intro X fuel b1 hfuel
    obtain ⟨f, rfl⟩ : ∃ f, fuel = f + 1 := ⟨fuel - 1, by omega⟩
    simp [readText, hq1]
  | plain c raw v hc _ ih =>
    intro X fuel b1 hfuel
    obtain ⟨f, rfl⟩ : ∃ f, fuel = f + 1 := ⟨fuel - 1, by omega⟩
    obtain ⟨h1, h2, h3, h4, h5, _⟩ := plainChar_ne hc
    have ih' := ih X f c (by simp only [List.length_cons] at hfuel; omega)
    rw [List.cons_append]
    simp only [readText, h2, h1, h3, if_false, ih', h4, h5, and_false]
  | named name ch raw v hname _ ih =>
    intro X fuel b1 hfuel
    obtain ⟨f, rfl⟩ : ∃ f, fuel = f + 1 := ⟨fuel - 1, by omega⟩
    have ih' := ih X f (Char.ofNat 0)
      (by simp only [List.length_cons, List.length_append] at hfuel; omega)
    have e : ('&' :: (name ++ ';' :: raw)) ++ q :: X = '&' :: (name ++ ';' :: (raw ++ q :: X)) := by
      simp [List.append_assoc]
    have ha : ¬ ('&' : Char) = '<' := by decide
    rw [e]
    simp only [readText, ha, hq2, if_false, if_true, readReference_named name ch _ hname, ih']
  | code hex ds ch raw v hne hds hval hch _ ih =>
    intro X fuel b1 hfuel
    obtain ⟨f, rfl⟩ : ∃ f, fuel = f + 1 := ⟨fuel - 1, by omega⟩
    have ih' := ih X f (Char.ofNat 0)
      (by simp only [List.length_cons, List.length_append] at hfuel; omega)
    have e : ('&' :: '#' :: (refMark hex ++ (ds ++ ';' :: raw))) ++ q :: X =
        '&' :: ('#' :: (refMark hex ++ (ds ++ ';' :: (raw ++ q :: X)))) := by
      simp [List.append_assoc]
    have ha : ¬ ('&' : Char) = '<' := by decide
    rw [e]
    simp only [readText, ha, hq2, if_false, if_true,
      readReference_code hex ds ch _ hne hds hval hch, ih']
  | lineEnd raw v _ ih =>
    intro X fuel b1 hfuel
    obtain ⟨f, rfl⟩ : ∃ f, fuel = f + 1 := ⟨fuel - 1, by omega⟩
    have ih' := ih X f '\r' (by simp only [List.length_cons] at hfuel; omega)
    have h1 : ¬ ('\r' : Char) = '<' := by decide
    have h2 : ¬ '\r' = q := by rcases hq with e | e <;> subst e <;> decide
    have h3 : ¬ ('\r' : Char) = '&' := by decide
    rw [List.cons_append]
    simp only [readText, h1, h2, h3, if_false, ih', if_true]

/-- The value an encoded text stands for is made of characters XML allows. -/
theorem Encodes.value_in_range {q : Char} {raw v : List Char} (h : Encodes q raw v) :
    ∀ c ∈ v, isInCharacterRange c = true := by
  induction h with
  | nil => simp
  | plain c raw v hc _ ih =>
    intro x hx
    rcases List.mem_cons.mp hx with e | hx
    · subst e
      exact (plainChar_ne hc).2.2.2.2.2
    · exact ih x hx
  | named name ch raw v hname _ ih =>
    intro x hx
    rcases List.mem_cons.mp hx with e | hx
    · subst e
      rcases entityChar_cases hname with h | h | h | h | h <;> rw [h.2] <;> decide
    · exact ih x hx
  | code hex ds ch raw v _ _ _ hch _ ih =>
    intro x hx
    rcases List.mem_cons.mp hx with e | hx
    · subst e
      exact hch
    · exact ih x hx
  | lineEnd raw v _ ih =>
    intro x hx
    rcases List.mem_cons.mp hx with e | hx
    · subst e; decide
    · exact ih x hx

theorem quote_not_space {q : Char} (hq : q = '"' ∨ q = '\'') : isSpace q = false := by
  rcases hq with e | e <;> subst e <;> decide

/-- The decoder reads `=` and the quoted text of a well-written attribute as
the attribute's value. -/
theorem readAttrValue_ok (a : AttrLayout) (h : a.OK) (X : List Char) :
    readAttrValue (a.pre ++ ('=' :: (a.post ++ (a.quote :: (a.raw ++ a.quote :: X))))) =
      .ok (a.value, X) := by
  obtain ⟨_, hpre, hpost, hq, henc, _⟩ := h
  have hs1 : skipSpace (a.pre ++ ('=' :: (a.post ++ (a.quote :: (a.raw ++ a.quote :: X))))) =
      '=' :: (a.post ++ (a.quote :: (a.raw ++ a.quote :: X))) := by
    rw [skipSpace_blank _ _ hpre]
    exact skipSpace_cons_of_not_space _ _ (by decide)
  have hs2 : skipSpace (a.post ++ (a.quote :: (a.raw ++ a.quote :: X))) =
      a.quote :: (a.raw ++ a.quote :: X) := by
    rw [skipSpace_blank _ _ hpost]
    exact skipSpace_cons_of_not_space _ _ (quote_not_space hq)
  have hall : a.value.all isInCharacterRange = true := by
    rw [List.all_eq_true]
    exact henc.value_in_range
  have hread := readText_encodes hq henc X (a.raw ++ a.quote :: X).length (Char.ofNat 0)
    (by simp)
  unfold readAttrValue
  rw [hs1]
  simp only [hs2, hq, if_true, hread, hall]

theorem readAttrs_congr (fuel : Nat) (s s' : List Char) (h : skipSpace s = skipSpace s') :
    readAttrs fuel s = readAttrs fuel s' := by
  cases fuel with
  | zero => rfl
  | succ f => rw [readAttrs, readAttrs, h]

theorem skipSpace_close (pad X : List Char) (h : IsBlank pad) :
    skipSpace (pad ++ '/' :: X) = '/' :: X := by
  rw [skipSpace_blank _ _ h]
  exact skipSpace_cons_of_not_space _ _ (by decide)

/-- The decoder reads the attributes of a tag of well-written attributes, in
order, with their values. -/
theorem readAttrs_attrs (attrs : List (List Char × AttrLayout)) (h : ∀ a ∈ attrs, AttrOK a)
    (pad : List Char) (hpad : IsBlank pad) (X : List Char) :
    ∀ fuel, attrs.length < fuel →
      readAttrs fuel ((attrs.map attrText).flatten ++ (pad ++ '/' :: '>' :: X))
        = .ok (attrs.map (fun a => (a.1, a.2.value))) := by
  induction attrs using List.rec with
  | nil =>
    intro fuel hfuel
    obtain ⟨f, rfl⟩ : ∃ f, fuel = f + 1 := ⟨fuel - 1, by simp at hfuel; omega⟩
    simp only [List.map_nil, List.flatten_nil, List.nil_append, readAttrs,
      skipSpace_close pad _ hpad]
  | cons a rest ih =>
    intro fuel hfuel
    obtain ⟨f, rfl⟩ : ∃ f, fuel = f + 1 := ⟨fuel - 1, by simp at hfuel; omega⟩
    have ha := h a (List.mem_cons_self _ _)
    have ih' := ih (fun x hx => h x (List.mem_cons_of_mem _ hx)) f
      (by simp only [List.length_cons] at hfuel; omega)
    obtain ⟨k, lay⟩ := a
    obtain ⟨hk, hlay⟩ := ha
    simp only at hk hlay
    have e : ((((k, lay) :: rest).map attrText).flatten ++ (pad ++ '/' :: '>' :: X)) =
        lay.gap ++ (k ++ (lay.pre ++ ('=' :: (lay.post ++ (lay.quote :: (lay.raw ++
          lay.quote :: ((rest.map attrText).flatten ++ (pad ++ '/' :: '>' :: X)))))))) := by
      simp [attrText, List.append_assoc]
    have hval := readAttrValue_ok lay hlay
      ((rest.map attrText).flatten ++ (pad ++ '/' :: '>' :: X))
    have hname := hk.readName_eq _ (spanName_blank_eq lay.pre
      (lay.post ++ (lay.quote :: (lay.raw ++
          lay.quote :: ((rest.map attrText).flatten ++ (pad ++ '/' :: '>' :: X))))) hlay.2.1)
    obtain ⟨c, s1, hs, hcs, hc1, hc2⟩ := hk.skipSpace_eq
      (lay.pre ++ ('=' :: (lay.post ++ (lay.quote :: (lay.raw ++
          lay.quote :: ((rest.map attrText).flatten ++ (pad ++ '/' :: '>' :: X)))))))
    have hs' : skipSpace (lay.gap ++ (k ++ (lay.pre ++ ('=' :: (lay.post ++ (lay.quote ::
        (lay.raw ++ lay.quote :: ((rest.map attrText).flatten ++
          (pad ++ '/' :: '>' :: X))))))))) = c :: s1 := by
      rw [skipSpace_blank _ _ hlay.1, hs]
    rw [e, readAttrs_step f _ s1 c hs' hc1 hc2, hcs, hname]
    simp only [hval, ih', List.map_cons]

theorem length_attrs_le (attrs : List (List Char × AttrLayout)) (Y : List Char) :
    attrs.length ≤ ((attrs.map attrText).flatten ++ Y).length := by
  induction attrs using List.rec with
  | nil => simp
  | cons a rest ih =>
    simp only [List.map_cons, List.flatten_cons, List.length_append, List.length_cons,
      attrText, List.length_nil] at ih ⊢
    omega

/-- The decoder stores the attributes of a tag of well-written attributes
into the metric, in the order of the tag. -/
theorem xmlUnmarshal_tagChars (attrs : List (List Char × AttrLayout))
    (pad : List Char) (h : ∀ x ∈ attrs, AttrOK x) (hpad : IsBlank pad) (metric : Metric) :
    xmlUnmarshal (tagChars attrs pad) metric =
      .ok ((attrs.map (fun a => (a.1, a.2.value))).foldl setAttr metric) := by
  have e : tagChars attrs pad =
      '<' :: ("metric".toList ++ ' ' :: ((attrs.map attrText).flatten ++
        (pad ++ '/' :: '>' :: []))) := by
    simp [tagChars, List.append_assoc]
  have hn : ∀ Y : List Char, readName ("metric".toList ++ ' ' :: Y) =
      .ok ("metric".toList, ' ' :: Y) := fun Y => rfl
  have hlen := length_attrs_le attrs (pad ++ '/' :: '>' :: [])
  have hcong : ∀ fuel, readAttrs fuel (' ' :: ((attrs.map attrText).flatten ++
      (pad ++ '/' :: '>' :: []))) = readAttrs fuel ((attrs.map attrText).flatten ++
      (pad ++ '/' :: '>' :: [])) := fun fuel => readAttrs_congr fuel _ _ rfl
  unfold xmlUnmarshal readStartTag
  rw [e]
  simp only [hn, hcong]
  rw [readAttrs_attrs attrs h pad hpad [] _ (by simp only [List.length_cons]; omega)]

theorem find?_eq_none_of_not_mem (l : List (List Char × List Char)) (k : List Char)
    (h : k ∉ l.map Prod.fst) : l.find? (fun p => decide (p.1 = k)) = none := by
  rw [List.find?_eq_none]
  intro p hp hpk
  simp only [decide_eq_true_eq] at hpk
  exact h (List.mem_map.mpr ⟨p, hp, hpk⟩)

theorem setAttr_name (m : Metric) (k v : List Char) :
    (setAttr m (k, v)).MetricName =
      if k = "name".toList then String.mk v else m.MetricName := by
  unfold setAttr
  have h1 : ¬ "value".toList = "name".toList := by decide
  have h2 : ¬ "type".toList = "name".toList := by decide
  split_ifs <;> simp_all

theorem setAttr_value (m : Metric) (k v : List Char) :
    (setAttr m (k, v)).MetricValue =
      if k = "value".toList then String.mk v else m.MetricValue := by
  unfold setAttr
  have h1 : ¬ "name".toList = "value".toList := by decide
  have h2 : ¬ "type".toList = "value".toList := by decide
  split_ifs <;> simp_all

theorem setAttr_type (m : Metric) (k v : List Char) :
    (setAttr m (k, v)).MetricType =
      if k = "type".toList then String.mk v else m.MetricType := by
  unfold setAttr
  have h1 : ¬ "name".toList = "type".toList := by decide
  have h2 : ¬ "value".toList = "type".toList := by decide
  split_ifs <;> simp_all

/-- Storing attributes of distinct names one after the other leaves in a
field the value of the attribute of that name, if there is one. -/
theorem foldl_setAttr_field (key : List Char) (field : Metric → String)
    (hfield : ∀ (m : Metric) (k v : List Char),
      field (setAttr m (k, v)) = if k = key then String.mk v else field m)
    (l : List (List Char × List Char)) (hnd : (l.map Prod.fst).Nodup) :
    ∀ m : Metric, field (l.foldl setAttr m) =
      match l.find? (fun p => decide (p.1 = key)) with
      | some p => String.mk p.2
      | none => field m := by
  induction l using List.rec with
  | nil => intro m; rfl
  | cons p rest ih =>
    intro m
    obtain ⟨k, v⟩ := p
    have hnd' : k ∉ rest.map Prod.fst ∧ (rest.map Prod.fst).Nodup := by
      simpa using hnd
    rw [List.foldl_cons, ih hnd'.2]
    by_cases hk : k = key
    · subst hk
      rw [find?_eq_none_of_not_mem rest k hnd'.1]
      simp [hfield]
    · simp [List.find?_cons, hk, hfield]

theorem MetricTag.valueOf_of_mem (t : MetricTag) (key : List Char)
    (h : key ∈ t.attrs.map Prod.fst) (fallback : String) :
    (match t.values.find? (fun p => decide (p.1 = key)) with
      | some p => String.mk p.2
      | none => fallback) = String.mk (t.valueOf key) := by
  unfold MetricTag.valueOf
  cases hf : t.values.find? (fun p => decide (p.1 = key)) with
  | some p => rfl
  | none =>
    exfalso
    rw [List.find?_eq_none] at hf
    obtain ⟨a, ha, hak⟩ := List.mem_map.mp h
    have := hf (a.1, a.2.value) (List.mem_map.mpr ⟨a, ha, rfl⟩)
    simp [hak] at this

theorem MetricTag.foldl_setAttr (t : MetricTag) (h : t.Clean) (metric : Metric) :
    t.values.foldl setAttr metric = t.metric := by
  obtain ⟨_, _, hnd, hn, hv, ht⟩ := h
  have hnd' : (t.values.map Prod.fst).Nodup := by
    simpa [MetricTag.values, List.map_map, Function.comp] using hnd
  have e1 := foldl_setAttr_field "name".toList Metric.MetricName setAttr_name t.values hnd' metric
  have e2 := foldl_setAttr_field "value".toList Metric.MetricValue setAttr_value t.values hnd'
    metric
  have e3 := foldl_setAttr_field "type".toList Metric.MetricType setAttr_type t.values hnd' metric
  rw [t.valueOf_of_mem _ hn] at e1
  rw [t.valueOf_of_mem _ hv] at e2
  rw [t.valueOf_of_mem _ ht] at e3
  cases hres : t.values.foldl setAttr metric with
  | mk n v ty =>
    rw [hres] at e1 e2 e3
    simp only at e1 e2 e3
    rw [e1, e2, e3]
    rfl

/-- The loop of `extractMetric` over the texts of valid tags builds the
metrics of the tags, whatever the variable `metric` held before. -/
theorem extractLoop_tags (tags : List MetricTag) (h : ∀ t ∈ tags, t.Clean) :
    ∀ metric : Metric,
      extractLoop metric (tags.map MetricTag.text) = some (tags.map MetricTag.metric) := by
  induction tags using List.rec with
  | nil => intro metric; rfl
  | cons t rest ih =>
    intro metric
    have ht := h t (List.mem_cons_self _ _)
    have hu : xmlUnmarshal t.text metric = .ok t.metric := by
      unfold MetricTag.text
      rw [xmlUnmarshal_tagChars t.attrs t.pad ht.1 ht.2.1]
      exact congrArg Decoded.ok (t.foldl_setAttr ht metric)
    simp only [List.map_cons, extractLoop, hu,
      ih (fun x hx => h x (List.mem_cons_of_mem _ hx)) t.metric]

/-- A text of plain characters encodes itself. -/
theorem Encodes.of_plain (q : Char) (l : List Char) (h : ∀ c ∈ l, plainChar q c = true) :
    Encodes q l l := by
  induction l using List.rec with
  | nil => exact Encodes.nil
  | cons c rest ih =>
    exact Encodes.plain c rest rest (h c (List.mem_cons_self _ _))
      (ih (fun x hx => h x (List.mem_cons_of_mem _ hx)))

theorem plainAttr_ok (key : List Char) (raw : String) (gap : List Char)
    (hkey : isSimpleName key = true) (hgap : IsBlank gap)
    (h : ∀ c ∈ raw.toList, plainChar '"' c = true) (hclose : ¬ "/>".toList <:+: raw.toList) :
    AttrOK (key, { plainAttr raw raw with gap := gap }) :=
  ⟨hkey, hgap, by simp [plainAttr, IsBlank], by simp [plainAttr, IsBlank], Or.inl rfl,
    Encodes.of_plain _ _ h, hclose⟩

/-- The text `R&amp;D &#x22;mem&#34;` encodes the value `R&D "mem"`. -/
theorem exampleRaw_encodes :
    Encodes '\'' "R&amp;D &#x22;mem&#34;".toList "R&D \"mem\"".toList :=
  Encodes.plain 'R' _ _ (by decide)
    (Encodes.named "amp".toList '&' _ _ rfl
      (Encodes.plain 'D' _ _ (by decide)
        (Encodes.plain ' ' _ _ (by decide)
          (Encodes.code true "22".toList '"' _ _ (by decide) (by decide) (by decide) (by decide)
            (Encodes.plain 'm' _ _ (by decide)
              (Encodes.plain 'e' _ _ (by decide)
                (Encodes.plain 'm' _ _ (by decide)
                  (Encodes.code false "34".toList '"' _ _ (by decide) (by decide) (by decide)
                    (by decide) Encodes.nil))))))))

theorem exampleSegs_ok : ∀ seg ∈ exampleSegs, NoOpen seg.1 ∧ seg.2.Clean := by
  intro seg hseg
  simp only [exampleSegs, List.mem_cons, List.mem_singleton, List.not_mem_nil, or_false] at hseg
  rcases hseg with e | e <;> subst e
  · refine ⟨by decide, ?_, by decide, by decide, by decide, by decide, by decide⟩
    intro a ha
    simp only [List.mem_cons, List.mem_singleton, List.not_mem_nil, or_false] at ha
    rcases ha with e | e | e <;> subst e
    · exact plainAttr_ok _ "cpu" [] (by decide) (by decide) (by decide) (by decide)
    · exact plainAttr_ok _ "42" [' '] (by decide) (by decide) (by decide) (by decide)
    · exact plainAttr_ok _ "gauge" [' '] (by decide) (by decide) (by decide) (by decide)
  · refine ⟨by decide, ?_, by decide, by decide, by decide, by decide, by decide⟩
    intro a ha
    simp only [List.mem_cons, List.mem_singleton, List.not_mem_nil, or_false] at ha
    rcases ha with e | e | e | e <;> subst e
    · exact plainAttr_ok _ "a]]>b" [] (by decide) (by decide) (by decide) (by decide)
    · exact plainAttr_ok _ "7/8 >" [' '] (by decide) (by decide) (by decide) (by decide)
    · exact plainAttr_ok _ "MB" [' '] (by decide) (by decide) (by decide) (by decide)
    · exact ⟨by unfold KeyOK; decide, by decide, by decide, by decide, Or.inr rfl,
        exampleRaw_encodes, by decide⟩

end Siteminder
